import Mathlib

/-!
Verification of `compass_metrics/git_metrics.py`.

Dates are ISO `"YYYY-MM-DD"` strings compared lexicographically, exactly as the
Python code compares them; `String` carries a linear order in Mathlib.  The
search backend (`client.search`) and the query builders are external
collaborators: every metric function is embedded as a pure function over the
data those collaborators would return (contributor records, commit-message
hashes, repository metadata, per-window cardinality results).  Python floats
are embedded as rationals, `round(x, 4)` as round-half-to-even on rationals.
-/

namespace GitMetrics

set_option maxHeartbeats 1000000
set_option linter.unnecessarySeqFocus false

/-- One entry of a contributor's `org_change_date_list`: an affiliation
interval `[first_date, last_date)` attributed to an organization name and/or
a domain (either may be absent). -/
structure OrgChange where
  org_name : Option String
  domain : Option String
  first_date : String
  last_date : String
  deriving DecidableEq, Repr

/-- A contributor record as fetched from the contributors index. -/
structure Contributor where
  repo_name : String
  is_bot : Bool
  code_commit_date_list : List String
  org_change_date_list : List OrgChange
  deriving DecidableEq, Repr

/-- Python truthiness of an optional string field (`if org.get("org_name")`):
`None` and the empty string are falsy. -/
def truthy : Option String → Bool
  | none => false
  | some s => !s.isEmpty

/-- Python's `<=` on strings: lexicographic on the character sequences.  This
is the same relation as Lean's `String` order (`sLe_iff`); it is phrased on
`toList` so that the kernel can evaluate it on concrete dates. -/
def sLe (a b : String) : Bool := decide (a.toList ≤ b.toList)

/-- Python's `<` on strings, as `sLe`. -/
def sLt (a b : String) : Bool := decide (a.toList < b.toList)

/-- Modelled from the spec: `check_times_has_overlap` lives in the external
`compass_common.datetime` module (not under `src/`); the spec specifies
`overlaps(aStart, aEnd, bStart, bEnd)` as true iff the two intervals share at
least one day. -/
def check_times_has_overlap (a_start a_end b_start b_end : String) : Bool :=
  sLe a_start b_end && sLe b_start a_end

/-- Modelled from the spec: `get_latest_date` lives in the external
`compass_common.datetime` module (not under `src/`); the spec specifies
`latest(a, b)` as max selection. -/
def get_latest_date (a b : String) : String :=
  if sLe a b then b else a

/-- Modelled from the spec: `get_oldest_date` lives in the external
`compass_common.datetime` module (not under `src/`); the spec specifies
`oldest(a, b)` as min selection. -/
def get_oldest_date (a b : String) : String :=
  if sLe a b then a else b

/-- The guard `is_bot is None or contributor["is_bot"] == is_bot` of
`get_commit_count` (git_metrics.py line 304). -/
def botMatch (is_bot : Option Bool) (c : Contributor) : Bool :=
  match is_bot with
  | none => true
  | some b => c.is_bot == b

/-- `get_commit_count` (git_metrics.py lines 299-317).  The `from_date_str`
and `to_date_str` parameters are the `strftime("%Y-%m-%d")` images of the
window bounds; the contributor list is the fetched data.  The nested Python
for-loops with `commit_count += 1` are embedded as folds. -/
def get_commit_count (from_date_str to_date_str : String)
    (contributor_list : List Contributor)
    (company : Option String) (is_bot : Option Bool) : Nat :=
  contributor_list.foldl (fun commit_count c =>
    if botMatch is_bot c then
      match company with
      | none =>
        c.code_commit_date_list.foldl (fun k cd =>
          if sLe from_date_str cd && sLe cd to_date_str then k + 1 else k) commit_count
      | some comp =>
        c.org_change_date_list.foldl (fun k o =>
          if decide (o.org_name = some comp) &&
              check_times_has_overlap o.first_date o.last_date from_date_str to_date_str then
            c.code_commit_date_list.foldl (fun k2 cd =>
              if sLe (get_latest_date from_date_str o.first_date) cd &&
                  sLt cd (get_oldest_date o.last_date to_date_str) then k2 + 1 else k2) k
          else k) commit_count
    else commit_count) 0

/-- The commits of one contributor that the no-company branch of
`get_commit_count` counts: dates in the fully closed window. -/
def closedWindowCount (from_date_str to_date_str : String) (c : Contributor) : Nat :=
  c.code_commit_date_list.countP (fun cd => sLe from_date_str cd && sLe cd to_date_str)

/-! ### Rounding

`round(x, 4)` on Python floats, embedded over rationals: round half to even at
the fourth decimal. -/

def pyRound4 (q : ℚ) : ℚ :=
  let s : ℚ := q * 10000
  let f : ℤ := Int.floor s
  let r : ℚ := s - f
  let n : ℤ :=
    if r < 1 / 2 then f
    else if 1 / 2 < r then f + 1
    else if f % 2 = 0 then f else f + 1
  (n : ℚ) / 10000

/-! ### `org_commit_frequency` (git_metrics.py lines 93-155)

The window bounds come in as their `strftime` strings; the fetched
contributor list is the data.  The Python dict `org_commit_detail_dict` is
embedded as an association list in insertion order, keyed by the entry's
`org_name` field (the org-name-or-domain key). -/

/-- One value of `org_commit_detail_dict`: `{org_name, is_org, org_commit}`,
where `org_name` holds the dict key (org name if truthy, else domain). -/
structure OrgDetail where
  org_name : Option String
  is_org : Bool
  org_commit : Nat
  deriving DecidableEq, Repr

/-- An element of the final `org_commit_frequency_list`, after the two
percentage fields are attached. -/
structure OrgDetailFull where
  org_name : Option String
  is_org : Bool
  org_commit : Nat
  org_commit_percentage_by_org : ℚ
  org_commit_percentage_by_total : ℚ
  deriving DecidableEq, Repr

/-- The dict key chosen at line 122:
`org.get("org_name") if org.get("org_name") else org.get("domain")`. -/
def keyOf (o : OrgChange) : Option String :=
  if truthy o.org_name then o.org_name else o.domain

/-- Line 112 and line 128: the commit date lies in the half-open affiliation
interval `first_date <= commit_date < last_date`. -/
def containsCd (o : OrgChange) (cd : String) : Bool :=
  sLe o.first_date cd && sLt cd o.last_date

/-- Python dict read `org_commit_detail_dict.get(org_name)` on the
insertion-ordered association list. -/
def dictGet (dict : List OrgDetail) (key : Option String) : Option OrgDetail :=
  dict.find? (fun d => decide (d.org_name = key))

/-- `org_commit_detail_dict.get(org_name, {}).get("org_commit", 0)`
(line 127). -/
def dictCount (dict : List OrgDetail) (key : Option String) : Nat :=
  match dictGet dict key with
  | some d => d.org_commit
  | none => 0

/-- Python dict write `org_commit_detail_dict[org_name] = e`: replace the
entry with the same key in place, else append at the end. -/
def dictSet : List OrgDetail → OrgDetail → List OrgDetail
  | [], e => [e]
  | d :: rest, e => if d.org_name = e.org_name then e :: rest else d :: dictSet rest e

/-- Stable insertion used by `pySort`. -/
def insertS {α : Type} (le : α → α → Bool) (x : α) : List α → List α
  | [] => [x]
  | y :: ys => if le x y then x :: y :: ys else y :: insertS le x ys

/-- Python's stable `sorted` with a boolean `le` comparison. -/
def pySort {α : Type} (le : α → α → Bool) (l : List α) : List α :=
  l.foldr (insertS le) []

/-- Line 108: the contributor's commits restricted to the half-open window,
after Python's `sorted`. -/
def windowCommits (from_date_str to_date_str : String) (c : Contributor) : List String :=
  (pySort sLe c.code_commit_date_list).filter
    (fun x => sLe from_date_str x && sLt x to_date_str)

/-- Lines 110-118: the for/`break` over `org_change_date_list` that attributes
one commit to at most one organization (`org_name is not None` and the commit
date inside the half-open affiliation interval). -/
def firstOrgMatch (c : Contributor) (cd : String) : Bool :=
  c.org_change_date_list.any (fun o => o.org_name.isSome && containsCd o cd)

/-- Lines 120-134: the per-commit pass over the contributor's affiliation
entries that updates `org_commit_detail_dict`, with `org_name_set` (`seen`)
deduplicating keys per commit. -/
def updDetail (c : Contributor) (cd : String) :
    List (Option String) → List OrgDetail → List OrgChange → List OrgDetail
  | _, dict, [] => dict
  | seen, dict, o :: rest =>
    let key := keyOf o
    if key ∈ seen then updDetail c cd seen dict rest
    else
      let is_org := truthy o.org_name
      let count0 := dictCount dict key
      let count := if containsCd o cd then count0 + 1 else count0
      updDetail c cd (key :: seen) (dictSet dict ⟨key, is_org, count⟩) rest

/-- How many dict entries the detail pass for one commit increments: the
first-per-key affiliation entries whose interval contains the commit date. -/
def incrCount (cd : String) : List (Option String) → List OrgChange → Nat
  | _, [] => 0
  | seen, o :: rest =>
    if keyOf o ∈ seen then incrCount cd seen rest
    else (if containsCd o cd then 1 else 0) + incrCount cd (keyOf o :: seen) rest

/-- The accumulator state of the contributor loop of `org_commit_frequency`
(lines 101-134). -/
structure OCFState where
  total_commit_count : Nat
  org_commit_count : Nat
  org_commit_bot_count : Nat
  org_commit_without_bot_count : Nat
  org_commit_detail_dict : List OrgDetail
  deriving Repr

/-- One iteration of the contributor loop (lines 107-134).  The loop body
touches the four counters and the detail dict independently per commit, so the
per-commit interleaving of the source folds into per-component updates. -/
def contribStep (from_date_str to_date_str : String) (st : OCFState) (c : Contributor) :
    OCFState :=
  let cds := windowCommits from_date_str to_date_str c
  let matched := cds.countP (fun cd => firstOrgMatch c cd)
  { total_commit_count := st.total_commit_count + cds.length
    org_commit_count := st.org_commit_count + matched
    org_commit_bot_count := st.org_commit_bot_count + if c.is_bot then matched else 0
    org_commit_without_bot_count :=
      st.org_commit_without_bot_count + if c.is_bot then 0 else matched
    org_commit_detail_dict :=
      cds.foldl (fun d cd => updDetail c cd [] d c.org_change_date_list) st.org_commit_detail_dict }

/-- The state after the whole contributor loop of `org_commit_frequency`. -/
def ocfState (from_date_str to_date_str : String) (ctl : List Contributor) : OCFState :=
  ctl.foldl (contribStep from_date_str to_date_str) ⟨0, 0, 0, 0, []⟩

/-- Lines 140-146: attach the two percentage fields to one detail entry. -/
def addPct (total_commit_count org_commit_count : Nat) (e : OrgDetail) : OrgDetailFull :=
  let by_org : ℚ :=
    if e.is_org then
      if org_commit_count = 0 then 0 else (e.org_commit : ℚ) / org_commit_count
    else
      if total_commit_count - org_commit_count = 0 then 0
      else (e.org_commit : ℚ) / ((total_commit_count - org_commit_count : Nat) : ℚ)
  { org_name := e.org_name
    is_org := e.is_org
    org_commit := e.org_commit
    org_commit_percentage_by_org := pyRound4 by_org
    org_commit_percentage_by_total :=
      if total_commit_count = 0 then 0 else pyRound4 ((e.org_commit : ℚ) / total_commit_count) }

/-- Lines 136-148: drop zero-count entries, attach percentages, sort by
`org_commit` descending (Python's stable `sorted` with `reverse=True`). -/
def ocfList (from_date_str to_date_str : String) (ctl : List Contributor) :
    List OrgDetailFull :=
  pySort (fun a b => decide (b.org_commit ≤ a.org_commit))
    (((ocfState from_date_str to_date_str ctl).org_commit_detail_dict.filter
        (fun e => decide (e.org_commit ≠ 0))).map
      (addPct (ocfState from_date_str to_date_str ctl).total_commit_count
        (ocfState from_date_str to_date_str ctl).org_commit_count))

/-- The result mapping of `org_commit_frequency` (lines 149-154). -/
structure OCFResult where
  org_commit_frequency : ℚ
  org_commit_frequency_bot : ℚ
  org_commit_frequency_without_bot : ℚ
  org_commit_frequency_list : List OrgDetailFull
  deriving Repr

/-- `org_commit_frequency` (lines 93-155). -/
def org_commit_frequency (from_date_str to_date_str : String) (ctl : List Contributor) :
    OCFResult :=
  { org_commit_frequency :=
      pyRound4 (((ocfState from_date_str to_date_str ctl).org_commit_count : ℚ) / (1285 / 100))
    org_commit_frequency_bot :=
      pyRound4 (((ocfState from_date_str to_date_str ctl).org_commit_bot_count : ℚ) / (1285 / 100))
    org_commit_frequency_without_bot :=
      pyRound4
        (((ocfState from_date_str to_date_str ctl).org_commit_without_bot_count : ℚ) / (1285 / 100))
    org_commit_frequency_list := ocfList from_date_str to_date_str ctl }

/-! ### Claim-side vocabulary for the `org_commit_frequency` claims -/

/-- The claim's hypothesis: one contributor's affiliation intervals
`[first_date, last_date)` are pairwise non-overlapping. -/
def intervalsDisjoint (a b : OrgChange) : Prop :=
  a.last_date ≤ b.first_date ∨ b.last_date ≤ a.first_date

/-- Non-overlapping affiliation timeline for every listed contributor. -/
def nonOverlapAll (ctl : List Contributor) : Prop :=
  ∀ c ∈ ctl, c.org_change_date_list.Pairwise intervalsDisjoint

/-- Every affiliation entry carries a truthy (non-null, non-empty)
organization name. -/
def allOrgNamed (ctl : List Contributor) : Prop :=
  ∀ c ∈ ctl, ∀ o ∈ c.org_change_date_list, truthy o.org_name = true

/-- The commits of the window that line 112 attributes to no organization. -/
def nonOrgCommitCount (from_date_str to_date_str : String) (ctl : List Contributor) : Nat :=
  (ctl.map (fun c =>
    (windowCommits from_date_str to_date_str c).countP (fun cd => !firstOrgMatch c cd))).sum

/-- The total of the `org_commit` counters of a detail dict. -/
def sumD (dict : List OrgDetail) : Nat :=
  (dict.map (fun e => e.org_commit)).sum

/-- Claim-side: the total number of window commits over the contributor
list — the value `total_commit_count` accumulates. -/
def totalWin (from_date_str to_date_str : String) (ctl : List Contributor) : Nat :=
  (ctl.map (fun c => (windowCommits from_date_str to_date_str c).length)).sum

/-- Claim-side: the number of org-attributed window commits — the value
`org_commit_count` accumulates. -/
def orgWin (from_date_str to_date_str : String) (ctl : List Contributor) : Nat :=
  (ctl.map (fun c =>
    (windowCommits from_date_str to_date_str c).countP (fun cd => firstOrgMatch c cd))).sum

/-- Claim-side: the total number of detail-dict increments over all window
commits. -/
def incrWin (from_date_str to_date_str : String) (ctl : List Contributor) : Nat :=
  (ctl.map (fun c =>
    ((windowCommits from_date_str to_date_str c).map
      (fun cd => incrCount cd [] c.org_change_date_list)).sum)).sum

/-- A contributor whose five commits fall in a domain-only affiliation
interval for the key `"X"`. -/
def cxDomainOnly : Contributor :=
  ⟨"r", false, ["2024-01-10", "2024-01-11", "2024-01-12", "2024-01-13", "2024-01-14"],
    [⟨none, some "X", "2024-01-01", "2024-02-01"⟩]⟩

/-- A contributor named to organization `"X"` whose single commit falls
outside the affiliation interval. -/
def cxNamedLate : Contributor :=
  ⟨"r", false, ["2024-01-20"], [⟨some "X", none, "2024-02-01", "2024-03-01"⟩]⟩

/-- The C2 counterexample input: the domain-only contributor accumulates five
commits under key `"X"`, then the org-named contributor's write flips the
entry's `is_org` flag to true while `org_commit_count` stays `0`. -/
def cx2List : List Contributor := [cxDomainOnly, cxNamedLate]

/-- A single-commit contributor affiliated to the given organization for all
of 2024. -/
def cxOrgOne (name : String) (cd : String) : Contributor :=
  ⟨"r", false, [cd], [⟨some name, none, "2024-01-01", "2025-01-01"⟩]⟩

/-- The C3 counterexample input: six window commits split 1/1/4 over three
organizations, so all percentages round up. -/
def cx3List : List Contributor :=
  [cxOrgOne "O1" "2024-02-01", cxOrgOne "O2" "2024-02-02",
    ⟨"r", false, ["2024-02-03", "2024-02-04", "2024-02-05", "2024-02-06"],
      [⟨some "O3", none, "2024-01-01", "2025-01-01"⟩]⟩]

/-! ### Calendar (`strftime("%Y-%m-%d")`) and `get_date_list`

Dates handed to the backend are embedded as day numbers of the proleptic
Gregorian calendar, counted from 0000-03-01; `dateToStr` is the `strftime`
embedding (the standard civil-from-days conversion). -/

def civilFromDays (z : Nat) : Nat × Nat × Nat :=
  let era := z / 146097
  let doe := z % 146097
  let yoe := (doe - doe / 1460 + doe / 36524 - doe / 146097) / 365
  let doy := doe - (365 * yoe + yoe / 4 - yoe / 100)
  let mp := (5 * doy + 2) / 153
  let d := doy - (153 * mp + 2) / 5 + 1
  let m := if mp < 10 then mp + 3 else mp - 9
  let y := yoe + era * 400
  (if m ≤ 2 then y + 1 else y, m, d)

def padNum (width n : Nat) : String :=
  let s := toString n
  String.mk (List.replicate (width - s.length) '0') ++ s

def dateToStr (n : Nat) : String :=
  let ymd := civilFromDays n
  padNum 4 ymd.1 ++ "-" ++ padNum 2 ymd.2.1 ++ "-" ++ padNum 2 ymd.2.2

/-- Modelled from the spec: `get_date_list` lives in the external
`compass_common.datetime` module (not under `src/`); the spec specifies
`dateSequence(begin, end, stepDays)` as the boundary dates at fixed-size
steps from `begin` to `end`, inclusive of the generated grid. -/
def get_date_list (begin_date end_date : Nat) (step : Nat) : List Nat :=
  (List.range ((end_date - begin_date) / step + 1)).map (fun i => begin_date + step * i)

/-! ### `org_contribution_last` (git_metrics.py lines 158-189) -/

/-- Python `set.add` on a set embedded as a duplicate-free list. -/
def setAdd (s : List String) (x : String) : List String :=
  if x ∈ s then s else x :: s

/-- Lines 181-184: the for/`break` that looks for one commit of the
contributor inside the closed 7-day sub-window. -/
def anyCommitIn (c : Contributor) (from_day to_day : String) : Bool :=
  c.code_commit_date_list.any (fun cd => sLe from_day cd && sLe cd to_day)

/-- Lines 178-184: the body of the affiliation loop — add the organization
name when the entry is org-named, its interval overlaps the sub-window, and
the contributor has a commit inside the sub-window. -/
def orgStep (c : Contributor) (from_day to_day : String) (s : List String)
    (o : OrgChange) : List String :=
  match o.org_name with
  | some name =>
    if check_times_has_overlap o.first_date o.last_date from_day to_day then
      if anyCommitIn c from_day to_day then setAdd s name else s
    else s
  | none => s

/-- Lines 174-184: the `org_name_set` built for one repository group and one
7-day sub-window. -/
def orgWeekSet (group : List Contributor) (from_day to_day : String) : List String :=
  group.foldl (fun s c => c.org_change_date_list.foldl (orgStep c from_day to_day) s) []

/-- Lines 166-169: one step of building `repo_contributor_group_dict`
(`dict.get(repo, []) + append + write back`, insertion-ordered). -/
def insertGroup (acc : List (String × List Contributor)) (c : Contributor) :
    List (String × List Contributor) :=
  match acc with
  | [] => [(c.repo_name, [c])]
  | (r, g) :: rest =>
    if r = c.repo_name then (r, g ++ [c]) :: rest else (r, g) :: insertGroup rest c

/-- The grouping of contributors by `repo_name`, in insertion order. -/
def groupByRepo (l : List Contributor) : List (String × List Contributor) :=
  l.foldl insertGroup []

/-- Reading the group dict: the value stored under a repository key. -/
def lookupG (acc : List (String × List Contributor)) (r : String) : List Contributor :=
  match acc.find? (fun p => decide (p.1 = r)) with
  | some p => p.2
  | none => []

/-- `org_contribution_last` (lines 158-189), over the fetched contributor
list; `from_date`/`to_date` are the 90-day window bounds as day numbers. -/
def org_contribution_last (contributors : List Contributor) (from_date to_date : Nat) : Nat :=
  let groups := groupByRepo contributors
  let date_list := get_date_list from_date to_date 7
  groups.foldl (fun acc rg =>
    date_list.foldl (fun acc day =>
      acc + (orgWeekSet rg.2 (dateToStr (day - 7)) (dateToStr day)).length) acc) 0

/-- Claim-side: organization `name` is active for contributor `c` in the
sub-window — some affiliation entry names it and overlaps the sub-window, and
`c` has a commit inside the sub-window. -/
def orgActive (c : Contributor) (name : String) (from_day to_day : String) : Prop :=
  ∃ o ∈ c.org_change_date_list, o.org_name = some name ∧
    check_times_has_overlap o.first_date o.last_date from_day to_day = true ∧
    anyCommitIn c from_day to_day = true

instance (c : Contributor) (name : String) (from_day to_day : String) :
    Decidable (orgActive c name from_day to_day) := by
  unfold orgActive
  infer_instance

/-- Claim-side: all organization names any group member ever names. -/
def allNames (group : List Contributor) : Finset String :=
  (group.flatMap (fun c => c.org_change_date_list.filterMap (fun o => o.org_name))).toFinset

/-- Claim-side: the number of distinct organizations active for some group
member in the sub-window. -/
def weekOrgCount (group : List Contributor) (from_day to_day : String) : Nat :=
  ((allNames group).filter (fun name => ∃ c ∈ group, orgActive c name from_day to_day)).card

/-- Claim-side restatement of `org_contribution_last`: sum over repositories
and 7-day sub-windows of the distinct-active-organization counts. -/
def orgContributionSpec (contributors : List Contributor) (from_date to_date : Nat) : Nat :=
  ∑ r ∈ (contributors.map (fun c => c.repo_name)).toFinset,
    ((get_date_list from_date to_date 7).map (fun day =>
      weekOrgCount (contributors.filter (fun c => decide (c.repo_name = r)))
        (dateToStr (day - 7)) (dateToStr day))).sum

/-! ### `is_maintained` (git_metrics.py lines 192-224) -/

inductive Level where
  | repo | project | community
  deriving DecidableEq, Repr

/-- `is_maintained` (lines 192-224).  `cardQuery repos fromDate toDate` is the
backend's cardinality-of-`hash` answer for the given repository list and
window; the repo branch samples 7-day slices over the trailing 90 days, the
project/community branch asks one 30-day question per repository. -/
def is_maintained (cardQuery : List String → Nat → Nat → Nat)
    (date : Nat) (repos_list : List String) (level : Level) : ℚ :=
  let git_repos_list := repos_list.map (fun r => r ++ ".git")
  let is_maintained_list : List String :=
    match level with
    | .repo =>
      (get_date_list (date - 90) date 7).map (fun day =>
        if cardQuery git_repos_list (day - 7) day > 0 then "True" else "False")
    | .project | .community =>
      git_repos_list.map (fun repo =>
        if cardQuery [repo] (date - 30) date > 0 then "True" else "False")
  pyRound4 (if is_maintained_list.length = 0 then 0
    else (is_maintained_list.count "True" : ℚ) / is_maintained_list.length)

/-! ### `updated_since` (git_metrics.py lines 36-58)

`repoMeta repo` models the head of the `repo_index` hits for the repository's
metadata query; `updatedMonths repo` models the latest-commit query together
with the external `get_time_diff_months` conversion (`none` when the
repository has no commit at or before the as-of date). -/

structure RepoMessage where
  archivedAt : Option String
  deriving Repr

/-- Lines 40-47: whether the loop `continue`s past the repository. -/
def archivedSkip (repoMeta : String → Option RepoMessage) (dateStr : String)
    (level : Level) (repo : String) : Bool :=
  (decide (level = Level.project) || decide (level = Level.community)) &&
    (match repoMeta repo with
     | some msg =>
       match msg.archivedAt with
       | some a => sLt a dateStr
       | none => false
     | none => false)

/-- `updated_since` (lines 36-58). -/
def updated_since (repoMeta : String → Option RepoMessage)
    (updatedMonths : String → Option ℚ) (dateStr : String)
    (repo_list : List String) (level : Level) : Option ℚ :=
  let updated_since_list := repo_list.foldl (fun acc repo =>
    if archivedSkip repoMeta dateStr level repo then acc
    else match updatedMonths repo with
      | some m => acc ++ [m]
      | none => acc) ([] : List ℚ)
  if updated_since_list.length > 0 then
    some (pyRound4 (updated_since_list.sum / (updated_since_list.length : ℚ)))
  else none

/-- Claim-side: the months values of the repositories that `updated_since`
keeps — those not skipped by the archived check — in list order. -/
def qualifyingMonths (repoMeta : String → Option RepoMessage)
    (updatedMonths : String → Option ℚ) (dateStr : String)
    (repo_list : List String) (level : Level) : List ℚ :=
  (repo_list.filter (fun r => !archivedSkip repoMeta dateStr level r)).filterMap updatedMonths

/-! ### `commit_pr_linked_count` / `commit_pr_linked_ratio`
(git_metrics.py lines 227-272)

`commit_message_list` is the paginated fetch of commit hashes for the 90-day
window; `prQuery chunk` models the pull-request lookup for one hash chunk,
returning each found pull request's `commits_data` list. -/

/-- Split a list into chunks of the given sizes. -/
def splitSizes {α : Type} : List α → List Nat → List (List α)
  | _, [] => []
  | l, s :: rest => l.take s :: splitSizes (l.drop s) rest

/-- `numpy.array_split(l, k)`: `k` chunks, the first `l.length % k` of size
`l.length / k + 1`, the rest of size `l.length / k`. -/
def array_split {α : Type} (l : List α) (k : Nat) : List (List α) :=
  let n := l.length
  splitSizes l ((List.range k).map (fun i => if i < n % k then n / k + 1 else n / k))

/-- `commit_pr_linked_count` (lines 252-272), returning the linked count
together with the number of pull-request queries issued (one per hash chunk;
zero on the early return). -/
def commit_pr_linked_count (commit_message_list : List String)
    (prQuery : List String → List (List String)) : Nat × Nat :=
  let commit_hash_set := commit_message_list.dedup
  if commit_hash_set.length = 0 then (0, 0)
  else
    let sub_commit_hash_list :=
      array_split commit_hash_set ((commit_hash_set.length + 99) / 100)
    let pr_commits_data_set := (sub_commit_hash_list.flatMap prQuery).flatten
    ((commit_hash_set.filter (fun h => decide (h ∈ pr_commits_data_set))).length,
      sub_commit_hash_list.length)

/-- Claim-side: the union of all pull-request `commits_data` sets the function
collects over its hash chunks. -/
def prUnion (commit_message_list : List String)
    (prQuery : List String → List (List String)) : List String :=
  ((array_split commit_message_list.dedup ((commit_message_list.dedup.length + 99) / 100)).flatMap
    prQuery).flatten

/-- `commit_count` (lines 238-249): total, bot-only and non-bot commit counts
over the fetched contributor list. -/
def commit_count (from_date_str to_date_str : String) (ctl : List Contributor) :
    Nat × Nat × Nat :=
  ( get_commit_count from_date_str to_date_str ctl none none,
    get_commit_count from_date_str to_date_str ctl none (some true),
    get_commit_count from_date_str to_date_str ctl none (some false))

/-- `commit_frequency` (lines 61-72): the three counts divided by 12.85. -/
def commit_frequency (from_date_str to_date_str : String) (ctl : List Contributor) :
    ℚ × ℚ × ℚ :=
  ( ((commit_count from_date_str to_date_str ctl).1 : ℚ) / (1285 / 100),
    ((commit_count from_date_str to_date_str ctl).2.1 : ℚ) / (1285 / 100),
    ((commit_count from_date_str to_date_str ctl).2.2 : ℚ) / (1285 / 100))

/-- `commit_pr_linked_ratio` (lines 227-235): `None` when the contributor
commit count is zero, else linked count over that commit count. -/
def commit_pr_linked_ratio (from_date_str to_date_str : String) (ctl : List Contributor)
    (commit_message_list : List String)
    (prQuery : List String → List (List String)) : Option ℚ :=
  let code_commit_count := (commit_count from_date_str to_date_str ctl).1
  let code_commit_pr_linked_count := ( commit_pr_linked_count commit_message_list prQuery).1
  if code_commit_count > 0 then
    some ((code_commit_pr_linked_count : ℚ) / (code_commit_count : ℚ))
  else none

/-! ### Theorems -/

/-- `sLe` is the `String` order. -/
theorem sLe_iff (a b : String) : sLe a b = true ↔ a ≤ b := by
  simp [sLe, String.le_iff_toList_le]

/-- `sLt` is the strict `String` order. -/
theorem sLt_iff (a b : String) : sLt a b = true ↔ a < b := by
  simp [sLt, String.lt_iff_toList_lt]

theorem sLe_eq_decide (a b : String) : sLe a b = decide (a ≤ b) :=
  decide_eq_decide.mpr String.le_iff_toList_le.symm

theorem sLt_eq_decide (a b : String) : sLt a b = decide (a < b) :=
  decide_eq_decide.mpr String.lt_iff_toList_lt.symm

theorem foldl_count_succ {α : Type} (p : α → Bool) :
    ∀ (l : List α) (k : Nat),
      l.foldl (fun k cd => if p cd then k + 1 else k) k = k + l.countP p := by
  intro l
  induction l with
  | nil => intro k; simp
  | cons x xs ih =>
    intro k
    by_cases h : p x <;> simp [List.countP_cons, h, ih] <;> try omega

theorem get_commit_count_eq_sum (from_date_str to_date_str : String)
    (l : List Contributor) (is_bot : Option Bool) :
    get_commit_count from_date_str to_date_str l none is_bot =
      (l.map (fun c => if botMatch is_bot c
        then closedWindowCount from_date_str to_date_str c else 0)).sum := by
  unfold get_commit_count
  suffices h : ∀ (k : Nat), l.foldl (fun commit_count c =>
      if botMatch is_bot c then
        c.code_commit_date_list.foldl (fun k cd =>
          if sLe from_date_str cd && sLe cd to_date_str then k + 1 else k) commit_count
      else commit_count) k =
      k + (l.map (fun c => if botMatch is_bot c
        then closedWindowCount from_date_str to_date_str c else 0)).sum by
    simpa using h 0
  induction l with
  | nil => intro k; simp
  | cons c cs ih =>
    intro k
    by_cases hb : botMatch is_bot c
    · simp only [List.foldl_cons, hb, if_pos, List.map_cons, List.sum_cons]
      rw [foldl_count_succ (fun cd => sLe from_date_str cd && sLe cd to_date_str)]
      rw [ih]
      simp only [hb, if_pos, closedWindowCount]
      omega
    · simp only [List.foldl_cons, hb, Bool.false_eq_true, if_neg, List.map_cons, List.sum_cons,
        not_false_iff]
      rw [ih]
      simp [hb]

/-- C4: for every contributor list with boolean `is_bot` fields and every
window, `get_commit_count` with `is_bot=None` equals the count with the filter
argument left at its default, and the `is_bot=True` and `is_bot=False` counts
partition the unfiltered count exactly. -/
theorem claim_C4_bot_partition (fd td : String) (l : List Contributor) :
    get_commit_count fd td l none none = get_commit_count fd td l none none ∧
    get_commit_count fd td l none (some true) + get_commit_count fd td l none (some false) =
      get_commit_count fd td l none none := by
  refine ⟨rfl, ?_⟩
  rw [get_commit_count_eq_sum, get_commit_count_eq_sum, get_commit_count_eq_sum]
  induction l with
  | nil => simp
  | cons c cs ih =>
    by_cases hb : c.is_bot = true
    · simp [botMatch, hb] at ih ⊢
      omega
    · simp only [Bool.not_eq_true] at hb
      simp [botMatch, hb] at ih ⊢
      omega

/-- C5: commit counting without a company filter counts exactly the commit
dates lying in the fully closed window `[from_date_str, to_date_str]` under
the string order; in particular a contributor whose commits are exactly the
two window endpoints is counted twice, and `commit_count` (hence
`commit_frequency`) uses this count. -/
theorem claim_C5_closed_window (fd td : String) (l : List Contributor) (h : fd ≤ td) :
    (get_commit_count fd td l none none =
      (l.map (fun c => c.code_commit_date_list.countP
        (fun cd => decide (fd ≤ cd ∧ cd ≤ td)))).sum) ∧
    get_commit_count fd td [⟨"r", false, [fd, td], []⟩] none none = 2 ∧
    (commit_count fd td l).1 = get_commit_count fd td l none none := by
  have hpt : ∀ (cd : String),
      (sLe fd cd && sLe cd td) = decide (fd ≤ cd ∧ cd ≤ td) := by
    intro cd
    simp [sLe_eq_decide, Bool.decide_and]
  refine ⟨?_, ?_, rfl⟩
  · rw [get_commit_count_eq_sum]
    simp only [botMatch, if_pos, closedWindowCount]
    refine congrArg List.sum (List.map_congr_left (fun c _ => ?_))
    exact List.countP_congr (fun cd _ => by rw [hpt cd])
  · rw [get_commit_count_eq_sum]
    simp only [botMatch, List.map_cons, List.map_nil, if_pos, closedWindowCount]
    have h1 : sLe fd fd = true := (sLe_iff fd fd).mpr le_rfl
    have h2 : sLe fd td = true := (sLe_iff fd td).mpr h
    have h3 : sLe td td = true := (sLe_iff td td).mpr le_rfl
    simp [List.countP_cons, h1, h2, h3]

/-- Witness for C5 at a concrete window. -/
theorem claim_C5_closed_window_witness :
    (("2024-01-01" : String) ≤ "2024-03-31") ∧
    get_commit_count "2024-01-01" "2024-03-31"
      [⟨"r", false, ["2024-01-01", "2024-03-31"], []⟩] none none = 2 := by
  have h : ("2024-01-01" : String) ≤ "2024-03-31" :=
    String.le_iff_toList_le.mpr (by decide)
  exact ⟨h, (claim_C5_closed_window "2024-01-01" "2024-03-31" [] h).2.1⟩

theorem updated_fold_eq (repoMeta : String → Option RepoMessage)
    (um : String → Option ℚ) (dateStr : String) (lvl : Level) :
    ∀ (rl : List String) (acc : List ℚ),
      rl.foldl (fun acc repo =>
        if archivedSkip repoMeta dateStr lvl repo then acc
        else match um repo with
          | some m => acc ++ [m]
          | none => acc) acc =
      acc ++ qualifyingMonths repoMeta um dateStr rl lvl := by
  intro rl
  induction rl with
  | nil => intro acc; simp [qualifyingMonths]
  | cons r rs ih =>
    intro acc
    by_cases hs : archivedSkip repoMeta dateStr lvl r
    · simp only [List.foldl_cons, hs, if_pos]
      rw [ih]
      simp [qualifyingMonths, List.filter_cons, hs]
    · simp only [List.foldl_cons, hs, Bool.false_eq_true, if_neg, not_false_iff]
      cases hum : um r with
      | some m =>
        simp only [hum]
        rw [ih]
        simp [qualifyingMonths, List.filter_cons, hs, List.filterMap_cons, hum]
      | none =>
        simp only [hum]
        rw [ih]
        simp [qualifyingMonths, List.filter_cons, hs, List.filterMap_cons, hum]

/-- `archivedSkip` is exactly the claim's skip condition. -/
theorem archivedSkip_iff (repoMeta : String → Option RepoMessage) (dateStr : String)
    (lvl : Level) (r : String) :
    archivedSkip repoMeta dateStr lvl r = true ↔
      ((lvl = Level.project ∨ lvl = Level.community) ∧
        ∃ msg, repoMeta r = some msg ∧ ∃ a, msg.archivedAt = some a ∧ a < dateStr) := by
  unfold archivedSkip
  cases hm : repoMeta r with
  | none => simp
  | some msg =>
    cases ha : msg.archivedAt with
    | none => simp [ha]
    | some a => simp [ha, sLt_iff]

/-- C8: `updated_since` skips a repository only at project/community level and
only when its metadata has `archivedAt` strictly before the as-of date string;
it rounds the average months over the remaining repositories to 4 decimals and
returns null iff none qualify; at repo level the metadata (hence the archived
flag) is never consulted. -/
theorem claim_C8_updated_since (repoMeta : String → Option RepoMessage)
    (um : String → Option ℚ) (dateStr : String) (rl : List String) (lvl : Level) :
    (updated_since repoMeta um dateStr rl lvl =
      if (qualifyingMonths repoMeta um dateStr rl lvl).length = 0 then none
      else some (pyRound4 ((qualifyingMonths repoMeta um dateStr rl lvl).sum /
        ((qualifyingMonths repoMeta um dateStr rl lvl).length : ℚ)))) ∧
    (∀ r, archivedSkip repoMeta dateStr lvl r = true ↔
      ((lvl = Level.project ∨ lvl = Level.community) ∧
        ∃ msg, repoMeta r = some msg ∧ ∃ a, msg.archivedAt = some a ∧ a < dateStr)) ∧
    (∀ meta2 : String → Option RepoMessage,
      updated_since repoMeta um dateStr rl Level.repo =
        updated_since meta2 um dateStr rl Level.repo) := by
  have hmain : ∀ (meta3 : String → Option RepoMessage) (lvl3 : Level),
      updated_since meta3 um dateStr rl lvl3 =
        if (qualifyingMonths meta3 um dateStr rl lvl3).length = 0 then none
        else some (pyRound4 ((qualifyingMonths meta3 um dateStr rl lvl3).sum /
          ((qualifyingMonths meta3 um dateStr rl lvl3).length : ℚ))) := by
    intro meta3 lvl3
    unfold updated_since
    rw [updated_fold_eq]
    simp only [List.nil_append]
    rcases h : qualifyingMonths meta3 um dateStr rl lvl3 with _ | ⟨m, ms⟩ <;> simp
  refine ⟨hmain repoMeta lvl, fun r => archivedSkip_iff repoMeta dateStr lvl r, fun meta2 => ?_⟩
  rw [hmain repoMeta Level.repo, hmain meta2 Level.repo]
  have hq : ∀ meta3 : String → Option RepoMessage,
      qualifyingMonths meta3 um dateStr rl Level.repo = rl.filterMap um := by
    intro meta3
    unfold qualifyingMonths
    have : ∀ r : String, (!archivedSkip meta3 dateStr Level.repo r) = true := by
      intro r
      unfold archivedSkip
      simp
    rw [List.filter_eq_self.mpr (fun r _ => this r)]
  rw [hq repoMeta, hq meta2]

/-- Witness for C8: a concrete archived repository at project level satisfies
the skip characterization. -/
theorem claim_C8_updated_since_witness :
    archivedSkip (fun _ => some (RepoMessage.mk (some "2020-01-01"))) "2024-01-01"
      Level.project "r" = true ↔
      ((Level.project = Level.project ∨ Level.project = Level.community) ∧
        ∃ msg, (fun _ => some (RepoMessage.mk (some "2020-01-01"))) "r" = some msg ∧
          ∃ a, msg.archivedAt = some a ∧ a < "2024-01-01") :=
  (claim_C8_updated_since (fun _ => some (RepoMessage.mk (some "2020-01-01")))
    (fun _ => some 2) "2024-01-01" ["r"] Level.project).2.1 "r"

theorem pyRound4_zero : pyRound4 0 = 0 := by
  unfold pyRound4
  norm_num

theorem pyRound4_one : pyRound4 1 = 1 := by
  unfold pyRound4
  norm_num

theorem get_date_list_ne_nil (a b s : Nat) : get_date_list a b s ≠ [] := by
  unfold get_date_list
  simp [List.range_succ]

/-- The `"True"` count of the sampled flag list is the count of qualifying
samples. -/
theorem count_true_map {α : Type} (p : α → Prop) [DecidablePred p] (l : List α) :
    (l.map (fun x => if p x then "True" else "False")).count "True" =
      l.countP (fun x => decide (p x)) := by
  rw [List.count_eq_countP, List.countP_map]
  refine List.countP_congr (fun x _ => ?_)
  by_cases h : p x <;> simp [h]

/-- C7: `is_maintained` never fails on empty samples — at project/community
level an empty repository list yields `0`; at repo level all-zero sampled
weeks yield `0.0`, all-positive sampled weeks yield `1.0`, and in general the
result is the fraction of qualifying 7-day samples rounded to 4 decimals. -/
theorem claim_C7_is_maintained (cq : List String → Nat → Nat → Nat)
    (d : Nat) (rl : List String) :
    (∀ lvl, (lvl = Level.project ∨ lvl = Level.community) →
      is_maintained cq d [] lvl = 0) ∧
    ((∀ day ∈ get_date_list (d - 90) d 7,
        cq (rl.map (fun r => r ++ ".git")) (day - 7) day = 0) →
      is_maintained cq d rl Level.repo = 0) ∧
    ((∀ day ∈ get_date_list (d - 90) d 7,
        0 < cq (rl.map (fun r => r ++ ".git")) (day - 7) day) →
      is_maintained cq d rl Level.repo = 1) ∧
    (is_maintained cq d rl Level.repo = pyRound4
      ((((get_date_list (d - 90) d 7).countP
          (fun day => decide (0 < cq (rl.map (fun r => r ++ ".git")) (day - 7) day))) : ℚ) /
        ((get_date_list (d - 90) d 7).length : ℚ))) := by
  have hgen : is_maintained cq d rl Level.repo = pyRound4
      ((((get_date_list (d - 90) d 7).countP
          (fun day => decide (0 < cq (rl.map (fun r => r ++ ".git")) (day - 7) day))) : ℚ) /
        ((get_date_list (d - 90) d 7).length : ℚ)) := by
    unfold is_maintained
    have hlen : ¬ ((get_date_list (d - 90) d 7).length = 0) := by
      simp only [ne_eq, List.length_eq_zero]
      exact get_date_list_ne_nil _ _ _
    simp only [List.length_map]
    rw [if_neg hlen]
    rw [count_true_map (fun day => 0 < cq (rl.map (fun r => r ++ ".git")) (day - 7) day)]
  refine ⟨?_, ?_, ?_, hgen⟩
  · intro lvl hl
    rcases hl with h | h <;> (subst h; unfold is_maintained; simp [pyRound4_zero])
  · intro hz
    rw [hgen]
    have : (get_date_list (d - 90) d 7).countP
        (fun day => decide (0 < cq (rl.map (fun r => r ++ ".git")) (day - 7) day)) = 0 := by
      rw [List.countP_eq_zero]
      intro day hday
      simp [hz day hday]
    rw [this]
    simpa using pyRound4_zero
  · intro hp
    rw [hgen]
    have hcnt : (get_date_list (d - 90) d 7).countP
        (fun day => decide (0 < cq (rl.map (fun r => r ++ ".git")) (day - 7) day)) =
        (get_date_list (d - 90) d 7).length := by
      rw [List.countP_eq_length]
      intro day hday
      simpa using hp day hday
    rw [hcnt]
    have hne : ((get_date_list (d - 90) d 7).length : ℚ) ≠ 0 := by
      have := get_date_list_ne_nil (d - 90) d 7
      simpa [List.length_eq_zero] using this
    rw [div_self hne]
    exact pyRound4_one

/-- Witness for C7 at concrete backends. -/
theorem claim_C7_is_maintained_witness :
    is_maintained (fun _ _ _ => 0) 100 ["r"] Level.repo = 0 ∧
    is_maintained (fun _ _ _ => 1) 100 ["r"] Level.repo = 1 ∧
    is_maintained (fun _ _ _ => 1) 100 [] Level.project = 0 := by
  refine ⟨?_, ?_, ?_⟩
  · exact (claim_C7_is_maintained (fun _ _ _ => 0) 100 ["r"]).2.1 (fun day _ => rfl)
  · exact (claim_C7_is_maintained (fun _ _ _ => 1) 100 ["r"]).2.2.1
      (fun day _ => Nat.zero_lt_one)
  · exact (claim_C7_is_maintained (fun _ _ _ => 1) 100 []).1 Level.project (Or.inl rfl)

/-- `commit_pr_linked_count` written through `prUnion`. -/
theorem commit_pr_linked_count_eq (msgs : List String)
    (prq : List String → List (List String)) :
    commit_pr_linked_count msgs prq =
      if msgs.dedup.length = 0 then (0, 0)
      else ((msgs.dedup.filter (fun h => decide (h ∈ prUnion msgs prq))).length,
        (array_split msgs.dedup ((msgs.dedup.length + 99) / 100)).length) := rfl

/-- C10: the linked count is at most the number of distinct fetched commit
hashes (it is the size of an intersection with that hash set), and an empty
fetched hash set short-circuits to `0` with zero pull-request queries
issued. -/
theorem claim_C10_linked_count_bound (msgs : List String)
    (prq : List String → List (List String)) :
    (( commit_pr_linked_count msgs prq).1 ≤ msgs.dedup.length) ∧
    (( commit_pr_linked_count msgs prq).1 =
      if msgs.dedup.length = 0 then 0
      else (msgs.dedup.filter (fun h => decide (h ∈ prUnion msgs prq))).length) ∧
    (msgs.dedup = [] → commit_pr_linked_count msgs prq = (0, 0)) := by
  refine ⟨?_, ?_, ?_⟩
  · rw [commit_pr_linked_count_eq]
    by_cases h : msgs.dedup.length = 0
    · simp [h]
    · simp only [h, Bool.false_eq_true, if_neg, not_false_iff]
      exact List.length_filter_le _ _
  · rw [commit_pr_linked_count_eq]
    by_cases h : msgs.dedup.length = 0 <;> simp [h]
  · intro h
    rw [commit_pr_linked_count_eq]
    simp [h]

/-- Witness for C10 on an empty fetch. -/
theorem claim_C10_linked_count_bound_witness :
    commit_pr_linked_count [] (fun _ => [["x"]]) = (0, 0) :=
  (claim_C10_linked_count_bound [] (fun _ => [["x"]])).2.2 (by decide)

/-- C1 as stated is false: with every fetched commit hash linked to a pull
request the ratio is still not `1.0`, because the denominator is the
contributor-index commit count, not the distinct fetched hash count.  Here two
contributor commits stand against one fetched, fully linked hash. -/
theorem claim_C1_counterexample :
    ( commit_pr_linked_ratio "2024-01-01" "2024-03-31"
        [⟨"r", false, ["2024-02-01", "2024-02-02"], []⟩] ["h1"] (fun _ => [["h1"]]) =
      some (1 / 2)) ∧
    (∀ h ∈ (["h1"] : List String).dedup, h ∈ prUnion ["h1"] (fun _ => [["h1"]])) ∧
    (some ((1 : ℚ) / 2) ≠ some 1) := by
  refine ⟨?_, by decide, by norm_num⟩
  have hc : (commit_count "2024-01-01" "2024-03-31"
      [⟨"r", false, ["2024-02-01", "2024-02-02"], []⟩]).1 = 2 := by decide
  have hl : ( commit_pr_linked_count ["h1"] (fun _ => [["h1"]])).1 = 1 := by decide
  unfold commit_pr_linked_ratio
  rw [hc, hl]
  norm_num

/-- C1 corrected: the ratio is `None` exactly when the contributor-derived
commit count is zero, and otherwise divides the linked count by that
contributor-derived commit count; it is `1.0` when every fetched hash is
linked and the contributor-derived count equals the distinct fetched hash
count. -/
theorem claim_C1_amended (fd td : String) (ctl : List Contributor) (msgs : List String)
    (prq : List String → List (List String)) :
    ( commit_pr_linked_ratio fd td ctl msgs prq =
      if (commit_count fd td ctl).1 = 0 then none
      else some ((( commit_pr_linked_count msgs prq).1 : ℚ) /
        ((commit_count fd td ctl).1 : ℚ))) ∧
    ((∀ h ∈ msgs.dedup, h ∈ prUnion msgs prq) →
      (commit_count fd td ctl).1 = msgs.dedup.length →
      0 < (commit_count fd td ctl).1 →
      commit_pr_linked_ratio fd td ctl msgs prq = some 1) := by
  constructor
  · unfold commit_pr_linked_ratio
    by_cases h : (commit_count fd td ctl).1 = 0
    · simp [h]
    · have h0 : 0 < (commit_count fd td ctl).1 := Nat.pos_of_ne_zero h
      simp [h, h0]
  · intro hall hlen hpos
    have hdne : ¬ (msgs.dedup.length = 0) := by omega
    have hl : ( commit_pr_linked_count msgs prq).1 = msgs.dedup.length := by
      rw [commit_pr_linked_count_eq]
      simp only [hdne, Bool.false_eq_true, if_neg, not_false_iff]
      rw [List.filter_eq_self.mpr (fun h hm => by simpa using hall h hm)]
    unfold commit_pr_linked_ratio
    rw [hl, hlen]
    rw [if_pos (by omega)]
    rw [div_self (by exact_mod_cast hdne)]

/-- Witness for the corrected C1: one fully linked hash against one
contributor commit gives ratio `1.0`. -/
theorem claim_C1_amended_witness :
    commit_pr_linked_ratio "2024-01-01" "2024-03-31"
      [⟨"r", false, ["2024-02-01"], []⟩] ["h1"] (fun _ => [["h1"]]) = some 1 :=
  (claim_C1_amended "2024-01-01" "2024-03-31" [⟨"r", false, ["2024-02-01"], []⟩]
    ["h1"] (fun _ => [["h1"]])).2 (by decide) (by decide) (by decide)

/-! ### Lemmas about the `org_commit_frequency` detail dict -/

theorem sumD_nil : sumD [] = 0 := rfl

theorem sumD_cons (e : OrgDetail) (l : List OrgDetail) :
    sumD (e :: l) = e.org_commit + sumD l := by
  simp [sumD]

/-- A dict write adds the written count and removes the overwritten one. -/
theorem sumD_dictSet (dict : List OrgDetail) (e : OrgDetail) :
    sumD (dictSet dict e) + dictCount dict e.org_name = sumD dict + e.org_commit := by
  induction dict with
  | nil => simp [dictSet, sumD, dictCount, dictGet]
  | cons d rest ih =>
    by_cases h : d.org_name = e.org_name
    · have hfind : dictGet (d :: rest) e.org_name = some d :=
        List.find?_cons_of_pos _ (by simp [h])
      simp only [dictSet, h, if_pos, dictCount, hfind, sumD_cons]
      omega
    · have hfind : dictGet (d :: rest) e.org_name = dictGet rest e.org_name :=
        List.find?_cons_of_neg _ (by simp [h])
      have hcnt : dictCount (d :: rest) e.org_name = dictCount rest e.org_name := by
        simp [dictCount, hfind]
      simp only [dictSet, h, if_neg, not_false_iff, sumD_cons, hcnt]
      omega

theorem allIsOrg_dictSet (dict : List OrgDetail) (e : OrgDetail)
    (hd : ∀ x ∈ dict, x.is_org = true) (he : e.is_org = true) :
    ∀ x ∈ dictSet dict e, x.is_org = true := by
  induction dict with
  | nil => simpa [dictSet] using he
  | cons d rest ih =>
    by_cases h : d.org_name = e.org_name
    · simp only [dictSet, h, if_pos]
      intro x hx
      rcases List.mem_cons.mp hx with rfl | hx
      · exact he
      · exact hd x (List.mem_cons_of_mem d hx)
    · simp only [dictSet, h, if_neg, not_false_iff]
      intro x hx
      rcases List.mem_cons.mp hx with rfl | hx
      · exact hd x (List.mem_cons_self x rest)
      · exact ih (fun y hy => hd y (List.mem_cons_of_mem d hy)) x hx

/-- One commit's detail pass adds exactly `incrCount` to the dict total. -/
theorem sumD_updDetail (c : Contributor) (cd : String) :
    ∀ (orgs : List OrgChange) (seen : List (Option String)) (dict : List OrgDetail),
      sumD (updDetail c cd seen dict orgs) = sumD dict + incrCount cd seen orgs := by
  intro orgs
  induction orgs with
  | nil => intro seen dict; simp [updDetail, incrCount]
  | cons o rest ih =>
    intro seen dict
    by_cases h : keyOf o ∈ seen
    · simp [updDetail, incrCount, h, ih]
    · simp only [updDetail, incrCount, h, if_neg, not_false_iff]
      rw [ih]
      have hs := sumD_dictSet dict
        ⟨keyOf o, truthy o.org_name,
          if containsCd o cd then dictCount dict (keyOf o) + 1 else dictCount dict (keyOf o)⟩
      by_cases hc : containsCd o cd = true <;> simp only [hc] at hs ⊢ <;> simp at hs ⊢ <;> omega

theorem allIsOrg_updDetail (c : Contributor) (cd : String) :
    ∀ (orgs : List OrgChange) (seen : List (Option String)) (dict : List OrgDetail),
      (∀ o ∈ orgs, truthy o.org_name = true) →
      (∀ x ∈ dict, x.is_org = true) →
      ∀ x ∈ updDetail c cd seen dict orgs, x.is_org = true := by
  intro orgs
  induction orgs with
  | nil => intro seen dict _ hd; simpa [updDetail] using hd
  | cons o rest ih =>
    intro seen dict hn hd
    by_cases h : keyOf o ∈ seen
    · simp only [updDetail, h, if_pos]
      exact ih seen dict (fun x hx => hn x (by simp [hx])) hd
    · simp only [updDetail, h, if_neg, not_false_iff]
      refine ih _ _ (fun x hx => hn x (by simp [hx])) ?_
      exact allIsOrg_dictSet dict _ hd (hn o (by simp))

/-- Per-key deduplication never counts more interval hits than there are. -/
theorem incrCount_le_countP (cd : String) :
    ∀ (orgs : List OrgChange) (seen : List (Option String)),
      incrCount cd seen orgs ≤ orgs.countP (fun o => containsCd o cd) := by
  intro orgs
  induction orgs with
  | nil => intro seen; simp [incrCount]
  | cons o rest ih =>
    intro seen
    by_cases h : keyOf o ∈ seen
    · simp only [incrCount, h, if_pos, List.countP_cons]
      exact le_trans (ih seen) (by omega)
    · simp only [incrCount, h, if_neg, not_false_iff, List.countP_cons]
      have := ih (keyOf o :: seen)
      by_cases hc : containsCd o cd = true <;> simp [hc] <;> omega

/-- Disjoint intervals cannot both contain the same commit date. -/
theorem disjoint_not_contains (a b : OrgChange) (cd : String)
    (h : intervalsDisjoint a b) (ha : containsCd a cd = true) :
    ¬ (containsCd b cd = true) := by
  simp only [containsCd, Bool.and_eq_true, sLe_iff, sLt_iff] at ha ⊢
  rcases ha with ⟨ha1, ha2⟩
  rcases h with h | h
  · intro hb
    exact absurd (le_trans h hb.1) (not_le_of_lt ha2)
  · intro hb
    exact absurd (le_trans h ha1) (not_le_of_lt hb.2)

/-- A pairwise-disjoint timeline contains a commit date at most once. -/
theorem countP_contains_le_one (cd : String) (orgs : List OrgChange)
    (h : orgs.Pairwise intervalsDisjoint) :
    orgs.countP (fun o => containsCd o cd) ≤ 1 := by
  induction orgs with
  | nil => simp
  | cons o rest ih =>
    rcases List.pairwise_cons.mp h with ⟨hd, ht⟩
    by_cases hc : containsCd o cd = true
    · have hz : rest.countP (fun o => containsCd o cd) = 0 :=
        List.countP_eq_zero.mpr (fun b hb => disjoint_not_contains o b cd (hd b hb) hc)
      simp [List.countP_cons, hc, hz]
    · have := ih ht
      simp only [List.countP_cons, hc]
      simp
      omega

theorem exists_contains_of_incr_pos (cd : String) :
    ∀ (orgs : List OrgChange) (seen : List (Option String)),
      0 < incrCount cd seen orgs → ∃ o ∈ orgs, containsCd o cd = true := by
  intro orgs
  induction orgs with
  | nil => intro seen h; simp [incrCount] at h
  | cons o rest ih =>
    intro seen h
    by_cases hs : keyOf o ∈ seen
    · simp only [incrCount, hs, if_pos] at h
      obtain ⟨b, hb, hc⟩ := ih seen h
      exact ⟨b, by simp [hb], hc⟩
    · simp only [incrCount, hs, if_neg, not_false_iff] at h
      by_cases hc : containsCd o cd = true
      · exact ⟨o, by simp, hc⟩
      · simp only [hc, Bool.false_eq_true, if_neg, not_false_iff, Nat.zero_add] at h
        obtain ⟨b, hb, hcb⟩ := ih (keyOf o :: seen) h
        exact ⟨b, by simp [hb], hcb⟩

theorem truthy_isSome (o : Option String) (h : truthy o = true) : o.isSome = true := by
  cases o with
  | none => simp [truthy] at h
  | some s => rfl

/-- With fully org-named records, a positive detail increment forces the
attribution counter to fire on the same commit. -/
theorem firstOrgMatch_of_incr (c : Contributor) (cd : String)
    (hnamed : ∀ o ∈ c.org_change_date_list, truthy o.org_name = true)
    (hpos : 0 < incrCount cd [] c.org_change_date_list) :
    firstOrgMatch c cd = true := by
  obtain ⟨o, ho, hc⟩ := exists_contains_of_incr_pos cd c.org_change_date_list [] hpos
  refine List.any_eq_true.mpr ⟨o, ho, ?_⟩
  rw [truthy_isSome o.org_name (hnamed o ho), hc]
  rfl

theorem incrCount_le_matchBit (c : Contributor) (cd : String)
    (hdis : c.org_change_date_list.Pairwise intervalsDisjoint)
    (hnamed : ∀ o ∈ c.org_change_date_list, truthy o.org_name = true) :
    incrCount cd [] c.org_change_date_list ≤ (if firstOrgMatch c cd then 1 else 0) := by
  by_cases hm : firstOrgMatch c cd = true
  · simp only [hm, if_pos]
    exact le_trans (incrCount_le_countP cd c.org_change_date_list [])
      (countP_contains_le_one cd c.org_change_date_list hdis)
  · simp only [hm, Bool.false_eq_true, if_neg, not_false_iff]
    by_contra hne
    exact hm (firstOrgMatch_of_incr c cd hnamed (by omega))

theorem sumD_commitFold (c : Contributor) :
    ∀ (cds : List String) (dict : List OrgDetail),
      sumD (cds.foldl (fun d cd => updDetail c cd [] d c.org_change_date_list) dict) =
        sumD dict + (cds.map (fun cd => incrCount cd [] c.org_change_date_list)).sum := by
  intro cds
  induction cds with
  | nil => intro dict; simp
  | cons cd rest ih =>
    intro dict
    simp only [List.foldl_cons, List.map_cons, List.sum_cons]
    rw [ih, sumD_updDetail]
    omega

theorem allIsOrg_commitFold (c : Contributor)
    (hn : ∀ o ∈ c.org_change_date_list, truthy o.org_name = true) :
    ∀ (cds : List String) (dict : List OrgDetail),
      (∀ x ∈ dict, x.is_org = true) →
      ∀ x ∈ cds.foldl (fun d cd => updDetail c cd [] d c.org_change_date_list) dict,
        x.is_org = true := by
  intro cds
  induction cds with
  | nil => intro dict hd; simpa using hd
  | cons cd rest ih =>
    intro dict hd
    simp only [List.foldl_cons]
    exact ih _ (allIsOrg_updDetail c cd c.org_change_date_list [] dict hn hd)

/-- The three accumulators of the contributor loop, characterized over any
initial state. -/
theorem ocf_fields (fd td : String) :
    ∀ (ctl : List Contributor) (st : OCFState),
      (ctl.foldl (contribStep fd td) st).total_commit_count =
        st.total_commit_count + totalWin fd td ctl ∧
      (ctl.foldl (contribStep fd td) st).org_commit_count =
        st.org_commit_count + orgWin fd td ctl ∧
      sumD (ctl.foldl (contribStep fd td) st).org_commit_detail_dict =
        sumD st.org_commit_detail_dict + incrWin fd td ctl := by
  intro ctl
  induction ctl with
  | nil => intro st; simp [totalWin, orgWin, incrWin]
  | cons c cs ih =>
    intro st
    simp only [List.foldl_cons]
    obtain ⟨h1, h2, h3⟩ := ih (contribStep fd td st c)
    refine ⟨?_, ?_, ?_⟩
    · rw [h1]
      simp only [contribStep, totalWin, List.map_cons, List.sum_cons]
      omega
    · rw [h2]
      simp only [contribStep, orgWin, List.map_cons, List.sum_cons]
      omega
    · rw [h3]
      simp only [contribStep, incrWin, List.map_cons, List.sum_cons]
      rw [sumD_commitFold]
      omega

theorem ocfState_total (fd td : String) (ctl : List Contributor) :
    (ocfState fd td ctl).total_commit_count = totalWin fd td ctl := by
  have := (ocf_fields fd td ctl ⟨0, 0, 0, 0, []⟩).1
  simpa [ocfState] using this

theorem ocfState_org (fd td : String) (ctl : List Contributor) :
    (ocfState fd td ctl).org_commit_count = orgWin fd td ctl := by
  have := (ocf_fields fd td ctl ⟨0, 0, 0, 0, []⟩).2.1
  simpa [ocfState] using this

theorem ocfState_sumD (fd td : String) (ctl : List Contributor) :
    sumD (ocfState fd td ctl).org_commit_detail_dict = incrWin fd td ctl := by
  have := (ocf_fields fd td ctl ⟨0, 0, 0, 0, []⟩).2.2
  simpa [ocfState, sumD] using this

theorem allIsOrg_ocfState (fd td : String) (ctl : List Contributor)
    (hnamed : allOrgNamed ctl) :
    ∀ x ∈ (ocfState fd td ctl).org_commit_detail_dict, x.is_org = true := by
  suffices h : ∀ (l : List Contributor), (∀ c ∈ l, ∀ o ∈ c.org_change_date_list,
      truthy o.org_name = true) → ∀ (st : OCFState),
      (∀ x ∈ st.org_commit_detail_dict, x.is_org = true) →
      ∀ x ∈ (l.foldl (contribStep fd td) st).org_commit_detail_dict, x.is_org = true by
    exact h ctl hnamed ⟨0, 0, 0, 0, []⟩ (by simp)
  intro l
  induction l with
  | nil => intro _ st hst; simpa using hst
  | cons c cs ih =>
    intro hn st hst
    simp only [List.foldl_cons]
    refine ih (fun c2 hc2 => hn c2 (List.mem_cons_of_mem c hc2)) _ ?_
    exact allIsOrg_commitFold c (hn c (List.mem_cons_self c cs)) _ _ hst

/-- Window-commit bookkeeping: each contributor's matched commits plus
unmatched commits are all its window commits. -/
theorem countP_bool_split {α : Type} (p : α → Bool) (l : List α) :
    l.countP p + l.countP (fun x => !p x) = l.length := by
  induction l with
  | nil => simp
  | cons x xs ih =>
    by_cases h : p x = true <;> simp [List.countP_cons, h] <;> omega

theorem sum_map_le_sum_map {α : Type} (f g : α → Nat) (l : List α)
    (h : ∀ x ∈ l, f x ≤ g x) : (l.map f).sum ≤ (l.map g).sum := by
  induction l with
  | nil => simp
  | cons x xs ih =>
    simp only [List.map_cons, List.sum_cons]
    have := ih (fun y hy => h y (List.mem_cons_of_mem x hy))
    have := h x (List.mem_cons_self x xs)
    omega

theorem countP_eq_sum_map_bit {α : Type} (p : α → Bool) (l : List α) :
    (l.map (fun x => if p x then 1 else 0)).sum = l.countP p := by
  induction l with
  | nil => simp
  | cons x xs ih =>
    by_cases h : p x = true <;> simp [List.countP_cons, h, ih] <;> omega

theorem orgWin_le_totalWin (fd td : String) (ctl : List Contributor) :
    orgWin fd td ctl ≤ totalWin fd td ctl := by
  exact sum_map_le_sum_map _ _ ctl (fun c _ => List.countP_le_length _)

theorem incrWin_le_totalWin (fd td : String) (ctl : List Contributor)
    (hdis : nonOverlapAll ctl) : incrWin fd td ctl ≤ totalWin fd td ctl := by
  refine sum_map_le_sum_map _ _ ctl (fun c hc => ?_)
  have hone : ∀ cd ∈ windowCommits fd td c,
      incrCount cd [] c.org_change_date_list ≤ 1 := by
    intro cd _
    exact le_trans (incrCount_le_countP cd c.org_change_date_list [])
      (countP_contains_le_one cd c.org_change_date_list (hdis c hc))
  calc ((windowCommits fd td c).map (fun cd => incrCount cd [] c.org_change_date_list)).sum
      ≤ ((windowCommits fd td c).map (fun _ => 1)).sum :=
        sum_map_le_sum_map _ _ _ hone
    _ = (windowCommits fd td c).length := by simp [List.map_const]
    _ ≤ (windowCommits fd td c).length := le_rfl

theorem incrWin_le_orgWin (fd td : String) (ctl : List Contributor)
    (hdis : nonOverlapAll ctl) (hnamed : allOrgNamed ctl) :
    incrWin fd td ctl ≤ orgWin fd td ctl := by
  refine sum_map_le_sum_map _ _ ctl (fun c hc => ?_)
  rw [← countP_eq_sum_map_bit (fun cd => firstOrgMatch c cd)]
  exact sum_map_le_sum_map _ _ _
    (fun cd _ => incrCount_le_matchBit c cd (hdis c hc) (hnamed c hc))

theorem totalWin_split (fd td : String) (ctl : List Contributor) :
    totalWin fd td ctl = orgWin fd td ctl + nonOrgCommitCount fd td ctl := by
  unfold totalWin orgWin nonOrgCommitCount
  induction ctl with
  | nil => simp
  | cons c cs ih =>
    simp only [List.map_cons, List.sum_cons]
    rw [ih]
    have := countP_bool_split (fun cd => firstOrgMatch c cd) (windowCommits fd td c)
    omega

/-! ### From the sorted output list back to the detail dict -/

theorem insertS_perm {α : Type} (le : α → α → Bool) (x : α) (l : List α) :
    List.Perm (insertS le x l) (x :: l) := by
  induction l with
  | nil => exact List.Perm.refl _
  | cons y ys ih =>
    by_cases h : le x y = true
    · simp [insertS, h]
    · simp only [insertS, h, Bool.false_eq_true, if_neg, not_false_iff]
      exact (ih.cons y).trans (List.Perm.swap x y ys)

theorem pySort_perm {α : Type} (le : α → α → Bool) (l : List α) :
    List.Perm (pySort le l) l := by
  induction l with
  | nil => exact List.Perm.refl _
  | cons x xs ih =>
    simp only [pySort, List.foldr_cons]
    exact (insertS_perm le x _).trans (ih.cons x)

theorem sumD_filter_ne (l : List OrgDetail) :
    ((l.filter (fun e => decide (e.org_commit ≠ 0))).map (fun e => e.org_commit)).sum =
      sumD l := by
  induction l with
  | nil => rfl
  | cons e rest ih =>
    rw [List.filter_cons]
    by_cases hz : e.org_commit = 0
    · rw [if_neg (by simp [hz])]
      rw [ih, sumD_cons, hz]
      omega
    · rw [if_pos (by simp [hz])]
      simp only [List.map_cons, List.sum_cons]
      rw [ih, sumD_cons]

theorem sumIsOrg_filter_ne (l : List OrgDetail) :
    (((l.filter (fun e => decide (e.org_commit ≠ 0))).filter (fun e => e.is_org)).map
      (fun e => e.org_commit)).sum =
      ((l.filter (fun e => e.is_org)).map (fun e => e.org_commit)).sum := by
  induction l with
  | nil => rfl
  | cons e rest ih =>
    rw [List.filter_cons, List.filter_cons]
    by_cases hz : e.org_commit = 0
    · rw [if_neg (by simp [hz])]
      by_cases ho : e.is_org = true
      · rw [if_pos ho]
        simp only [List.map_cons, List.sum_cons, hz]
        rw [ih]
        omega
      · rw [if_neg ho]
        exact ih
    · rw [if_pos (by simp [hz]), List.filter_cons]
      by_cases ho : e.is_org = true
      · rw [if_pos ho, if_pos ho]
        simp only [List.map_cons, List.sum_cons]
        rw [ih]
      · rw [if_neg ho, if_neg ho]
        exact ih

/-- The `org_commit` total of the final output list is the dict total. -/
theorem sumAll_ocfList (fd td : String) (ctl : List Contributor) :
    ((ocfList fd td ctl).map (fun e => e.org_commit)).sum =
      sumD (ocfState fd td ctl).org_commit_detail_dict := by
  unfold ocfList
  have hp := pySort_perm (fun (a b : OrgDetailFull) => decide (b.org_commit ≤ a.org_commit))
    (((ocfState fd td ctl).org_commit_detail_dict.filter
        (fun e => decide (e.org_commit ≠ 0))).map
      (addPct (ocfState fd td ctl).total_commit_count (ocfState fd td ctl).org_commit_count))
  rw [(hp.map (fun e => e.org_commit)).sum_eq]
  rw [List.map_map]
  rw [List.map_congr_left (fun (e : OrgDetail) _ => (rfl :
    ((fun x => OrgDetailFull.org_commit x) ∘ addPct (ocfState fd td ctl).total_commit_count
      (ocfState fd td ctl).org_commit_count) e = e.org_commit))]
  exact sumD_filter_ne _

/-- The `org_commit` total of the `is_org` output entries is the dict's
`is_org` total. -/
theorem sumIsOrg_ocfList (fd td : String) (ctl : List Contributor) :
    (((ocfList fd td ctl).filter (fun e => e.is_org)).map (fun e => e.org_commit)).sum =
      (((ocfState fd td ctl).org_commit_detail_dict.filter (fun e => e.is_org)).map
        (fun e => e.org_commit)).sum := by
  unfold ocfList
  have hp := pySort_perm (fun (a b : OrgDetailFull) => decide (b.org_commit ≤ a.org_commit))
    (((ocfState fd td ctl).org_commit_detail_dict.filter
        (fun e => decide (e.org_commit ≠ 0))).map
      (addPct (ocfState fd td ctl).total_commit_count (ocfState fd td ctl).org_commit_count))
  rw [((hp.filter (fun e => e.is_org)).map (fun e => e.org_commit)).sum_eq]
  rw [List.filter_map, List.map_map]
  rw [List.map_congr_left (fun (e : OrgDetail) _ => (rfl :
    ((fun x => OrgDetailFull.org_commit x) ∘ addPct (ocfState fd td ctl).total_commit_count
      (ocfState fd td ctl).org_commit_count) e = e.org_commit))]
  rw [List.filter_congr (fun (e : OrgDetail) _ => (rfl :
    ((fun x => OrgDetailFull.is_org x) ∘ addPct (ocfState fd td ctl).total_commit_count
      (ocfState fd td ctl).org_commit_count) e = e.is_org))]
  exact sumIsOrg_filter_ne _

theorem sum_map_le_all (l : List OrgDetail) :
    ((l.filter (fun e => e.is_org)).map (fun e => e.org_commit)).sum ≤ sumD l := by
  induction l with
  | nil => simp [sumD]
  | cons e rest ih =>
    by_cases ho : e.is_org = true <;> simp [List.filter_cons, ho, sumD_cons] <;> omega

/-- Under fully named entries the whole dict is `is_org`, so the `is_org`
total is the dict total. -/
theorem sumIsOrg_eq_sumD_of_allIsOrg (l : List OrgDetail)
    (h : ∀ x ∈ l, x.is_org = true) :
    ((l.filter (fun e => e.is_org)).map (fun e => e.org_commit)).sum = sumD l := by
  rw [List.filter_eq_self.mpr h]
  rfl

/-- The stored `org_commit_percentage_by_total` values of the output list,
expressed over the detail dict. -/
theorem sumByTotal_ocfList (fd td : String) (ctl : List Contributor) :
    ((ocfList fd td ctl).map (fun e => e.org_commit_percentage_by_total)).sum =
      (((ocfState fd td ctl).org_commit_detail_dict.filter
          (fun e => decide (e.org_commit ≠ 0))).map
        (fun e => if (ocfState fd td ctl).total_commit_count = 0 then (0 : ℚ)
          else pyRound4
            ((e.org_commit : ℚ) / ((ocfState fd td ctl).total_commit_count : ℚ)))).sum := by
  unfold ocfList
  have hp := pySort_perm (fun (a b : OrgDetailFull) => decide (b.org_commit ≤ a.org_commit))
    (((ocfState fd td ctl).org_commit_detail_dict.filter
        (fun e => decide (e.org_commit ≠ 0))).map
      (addPct (ocfState fd td ctl).total_commit_count (ocfState fd td ctl).org_commit_count))
  rw [(hp.map (fun e => e.org_commit_percentage_by_total)).sum_eq]
  rw [List.map_map]
  exact congrArg List.sum (List.map_congr_left (fun e _ => rfl))

theorem pyRound4_sixth : pyRound4 (1 / 6) = 1667 / 10000 := by
  unfold pyRound4
  norm_num [Int.floor_eq_iff]

theorem pyRound4_two_thirds : pyRound4 (2 / 3) = 6667 / 10000 := by
  unfold pyRound4
  norm_num [Int.floor_eq_iff]

theorem sum_map_div_nat (l : List Nat) (K : ℚ) :
    (l.map (fun (n : Nat) => (n : ℚ) / K)).sum = ((l.sum : ℚ)) / K := by
  induction l with
  | nil => simp
  | cons a rest ih =>
    simp only [List.map_cons, List.sum_cons, ih]
    rw [Nat.cast_add, add_div]

theorem cx2_nonOverlap : nonOverlapAll cx2List := by
  intro c hc
  simp only [cx2List, List.mem_cons, List.not_mem_nil, or_false] at hc
  rcases hc with rfl | rfl
  · simp [cxDomainOnly]
  · simp [cxNamedLate]

theorem cx3_nonOverlap : nonOverlapAll cx3List := by
  intro c hc
  simp only [cx3List, cxOrgOne, List.mem_cons, List.not_mem_nil, or_false] at hc
  rcases hc with rfl | rfl | rfl <;> simp

theorem cx3_allNamed : allOrgNamed cx3List := by
  unfold allOrgNamed
  decide

/-- C2 as stated is false: with pairwise non-overlapping affiliation
timelines, a key fed by domain-only records can end with `is_org = true`
(the flag follows the last write), so the `is_org=true` entries' `org_commit`
sum exceeds `org_commit_count`.  Here the `is_org` output sum is 5 while
`org_commit_count` is 0. -/
theorem claim_C2_counterexample :
    nonOverlapAll cx2List ∧
    (((ocfList "2024-01-01" "2024-03-01" cx2List).filter (fun e => e.is_org)).map
      (fun e => e.org_commit)).sum = 5 ∧
    (ocfState "2024-01-01" "2024-03-01" cx2List).org_commit_count = 0 := by
  refine ⟨cx2_nonOverlap, ?_, by decide⟩
  rw [sumIsOrg_ocfList]
  decide

/-- Under non-overlapping timelines the output `org_commit` total is bounded
by the window commit total. -/
theorem sumAll_le_total (fd td : String) (ctl : List Contributor)
    (hdis : nonOverlapAll ctl) :
    ((ocfList fd td ctl).map (fun e => e.org_commit)).sum ≤
      (ocfState fd td ctl).total_commit_count := by
  rw [sumAll_ocfList, ocfState_sumD, ocfState_total]
  exact incrWin_le_totalWin fd td ctl hdis

/-- Under non-overlapping timelines and fully org-named entries the
`is_org=true` output `org_commit` total is bounded by `org_commit_count`. -/
theorem sumIsOrg_le_org (fd td : String) (ctl : List Contributor)
    (hdis : nonOverlapAll ctl) (hnamed : allOrgNamed ctl) :
    (((ocfList fd td ctl).filter (fun e => e.is_org)).map (fun e => e.org_commit)).sum ≤
      (ocfState fd td ctl).org_commit_count := by
  rw [sumIsOrg_ocfList,
    sumIsOrg_eq_sumD_of_allIsOrg _ (allIsOrg_ocfState fd td ctl hnamed),
    ocfState_sumD, ocfState_org]
  exact incrWin_le_orgWin fd td ctl hdis hnamed

/-- C2 corrected: with non-overlapping timelines the output `org_commit`
counts sum to at most `org_commit_count` plus the non-org-attributed commits,
and the non-org remainder equals `total_commit_count - org_commit_count`;
only the `is_org=true` bound additionally needs every affiliation entry to
carry a non-empty organization name. -/
theorem claim_C2_amended (fd td : String) (ctl : List Contributor)
    (hdis : nonOverlapAll ctl) :
    (((ocfList fd td ctl).map (fun e => e.org_commit)).sum ≤
      (ocfState fd td ctl).org_commit_count +
        ((ocfState fd td ctl).total_commit_count - (ocfState fd td ctl).org_commit_count)) ∧
    (allOrgNamed ctl →
      (((ocfList fd td ctl).filter (fun e => e.is_org)).map (fun e => e.org_commit)).sum ≤
        (ocfState fd td ctl).org_commit_count) ∧
    ((ocfState fd td ctl).total_commit_count - (ocfState fd td ctl).org_commit_count =
      nonOrgCommitCount fd td ctl) := by
  have htot := ocfState_total fd td ctl
  have horg := ocfState_org fd td ctl
  have h3 := orgWin_le_totalWin fd td ctl
  have h4 := totalWin_split fd td ctl
  refine ⟨?_, fun hnamed => sumIsOrg_le_org fd td ctl hdis hnamed, ?_⟩
  · have h5 := sumAll_le_total fd td ctl hdis
    rw [htot] at h5
    rw [htot, horg]
    omega
  · rw [htot, horg]
    omega

/-- Witness for the corrected C2: the bounds at a concrete domain-only input
and the `is_org` bound at a concrete fully-named input. -/
theorem claim_C2_amended_witness :
    ((((ocfList "2024-01-01" "2024-03-01" cx2List).map (fun e => e.org_commit)).sum ≤
      (ocfState "2024-01-01" "2024-03-01" cx2List).org_commit_count +
        ((ocfState "2024-01-01" "2024-03-01" cx2List).total_commit_count -
          (ocfState "2024-01-01" "2024-03-01" cx2List).org_commit_count)) ∧
    ((((ocfList "2024-01-01" "2024-03-31" cx3List).filter (fun e => e.is_org)).map
      (fun e => e.org_commit)).sum ≤
      (ocfState "2024-01-01" "2024-03-31" cx3List).org_commit_count)) :=
  ⟨(claim_C2_amended "2024-01-01" "2024-03-01" cx2List cx2_nonOverlap).1,
    (claim_C2_amended "2024-01-01" "2024-03-31" cx3List cx3_nonOverlap).2.1 cx3_allNamed⟩

/-- C3 as stated is false: the stored percentages are rounded half-to-even at
four decimals, and six window commits split 1/1/4 over three organizations
each round up, so the `org_commit_percentage_by_total` values sum to 1.0001,
exceeding 1.0 even though the affiliation timelines are non-overlapping. -/
theorem claim_C3_counterexample :
    nonOverlapAll cx3List ∧
    ¬ (((ocfList "2024-01-01" "2024-03-31" cx3List).map
        (fun e => e.org_commit_percentage_by_total)).sum ≤ 1) := by
  refine ⟨cx3_nonOverlap, ?_⟩
  rw [sumByTotal_ocfList]
  have hdict : (ocfState "2024-01-01" "2024-03-31" cx3List).org_commit_detail_dict =
      [⟨some "O1", true, 1⟩, ⟨some "O2", true, 1⟩, ⟨some "O3", true, 4⟩] := by decide
  have htot : (ocfState "2024-01-01" "2024-03-31" cx3List).total_commit_count = 6 := by decide
  rw [hdict, htot]
  norm_num [List.filter_cons, pyRound4_sixth, pyRound4_two_thirds]

/-- C3 corrected: with non-overlapping timelines the pre-rounding
`org_commit / total_commit_count` ratios over all output entries sum to at
most 1.0, and the pre-rounding `org_commit / org_commit_count` ratios over
`is_org=true` entries sum to at most 1.0 when additionally every affiliation
entry is org-named; only the rounding can push the stored sums above 1.0. -/
theorem claim_C3_amended (fd td : String) (ctl : List Contributor)
    (hdis : nonOverlapAll ctl) :
    (allOrgNamed ctl →
      ((((ocfList fd td ctl).filter (fun e => e.is_org)).map (fun e =>
        (e.org_commit : ℚ) / ((ocfState fd td ctl).org_commit_count : ℚ))).sum ≤ 1)) ∧
    (((ocfList fd td ctl).map (fun e =>
        (e.org_commit : ℚ) / ((ocfState fd td ctl).total_commit_count : ℚ))).sum ≤ 1) := by
  constructor
  · intro hnamed
    have hisorg := sumIsOrg_le_org fd td ctl hdis hnamed
    have hcomp : (fun (e : OrgDetailFull) =>
        (e.org_commit : ℚ) / ((ocfState fd td ctl).org_commit_count : ℚ)) =
        (fun (n : Nat) => (n : ℚ) / ((ocfState fd td ctl).org_commit_count : ℚ)) ∘
          (fun e => e.org_commit) := rfl
    rw [hcomp, ← List.map_map, sum_map_div_nat]
    rcases Nat.eq_zero_or_pos (ocfState fd td ctl).org_commit_count with hz | hpos
    · rw [hz] at hisorg
      have : (((ocfList fd td ctl).filter (fun e => e.is_org)).map
          (fun e => e.org_commit)).sum = 0 := by omega
      rw [this]
      norm_num
    · rw [div_le_one (by exact_mod_cast hpos)]
      exact_mod_cast hisorg
  · have hle := sumAll_le_total fd td ctl hdis
    have hcomp : (fun (e : OrgDetailFull) =>
        (e.org_commit : ℚ) / ((ocfState fd td ctl).total_commit_count : ℚ)) =
        (fun (n : Nat) => (n : ℚ) / ((ocfState fd td ctl).total_commit_count : ℚ)) ∘
          (fun e => e.org_commit) := rfl
    rw [hcomp, ← List.map_map, sum_map_div_nat]
    rcases Nat.eq_zero_or_pos (ocfState fd td ctl).total_commit_count with hz | hpos
    · rw [hz] at hle
      have : ((ocfList fd td ctl).map (fun e => e.org_commit)).sum = 0 := by omega
      rw [this]
      norm_num
    · rw [div_le_one (by exact_mod_cast hpos)]
      exact_mod_cast hle

/-- Witness for the corrected C3: the by_total bound at the domain-only
input and the by_org bound at the fully-named input. -/
theorem claim_C3_amended_witness :
    (((ocfList "2024-01-01" "2024-03-01" cx2List).map (fun e =>
      (e.org_commit : ℚ) /
        ((ocfState "2024-01-01" "2024-03-01" cx2List).total_commit_count : ℚ))).sum ≤ 1) ∧
    ((((ocfList "2024-01-01" "2024-03-31" cx3List).filter (fun e => e.is_org)).map (fun e =>
      (e.org_commit : ℚ) /
        ((ocfState "2024-01-01" "2024-03-31" cx3List).org_commit_count : ℚ))).sum ≤ 1) :=
  ⟨(claim_C3_amended "2024-01-01" "2024-03-01" cx2List cx2_nonOverlap).2,
    (claim_C3_amended "2024-01-01" "2024-03-31" cx3List cx3_nonOverlap).1 cx3_allNamed⟩

/-- C9: every entry of the emitted `org_commit_frequency_list` has
`org_commit` at least 1 — zero-count keys are filtered out before output. -/
theorem claim_C9_output_min_one (fd td : String) (ctl : List Contributor) :
    ∀ e ∈ (org_commit_frequency fd td ctl).org_commit_frequency_list, 1 ≤ e.org_commit := by
  intro e he
  have hl : (org_commit_frequency fd td ctl).org_commit_frequency_list =
      ocfList fd td ctl := rfl
  rw [hl] at he
  unfold ocfList at he
  rw [List.Perm.mem_iff (pySort_perm _ _)] at he
  obtain ⟨d, hd, rfl⟩ := List.mem_map.mp he
  have hne : d.org_commit ≠ 0 := of_decide_eq_true (List.mem_filter.mp hd).2
  show 1 ≤ d.org_commit
  omega

/-- The output list of the single-contributor, single-commit example. -/
theorem ocfList_single :
    ocfList "2024-01-01" "2024-03-31" [cxOrgOne "O1" "2024-02-01"] =
      [⟨some "O1", true, 1, 1, 1⟩] := by
  have hdict : (ocfState "2024-01-01" "2024-03-31"
      [cxOrgOne "O1" "2024-02-01"]).org_commit_detail_dict = [⟨some "O1", true, 1⟩] := by decide
  have htot : (ocfState "2024-01-01" "2024-03-31"
      [cxOrgOne "O1" "2024-02-01"]).total_commit_count = 1 := by decide
  have horg : (ocfState "2024-01-01" "2024-03-31"
      [cxOrgOne "O1" "2024-02-01"]).org_commit_count = 1 := by decide
  unfold ocfList
  rw [hdict, htot, horg]
  have h1 : pyRound4 (((1 : Nat) : ℚ) / ((1 : Nat) : ℚ)) = 1 := by
    norm_num [pyRound4_one]
  simp [List.filter_cons, pySort, insertS, addPct, h1, pyRound4_one]

/-- Witness for C9: the single-entry output of a one-commit contributor. -/
theorem claim_C9_output_min_one_witness :
    1 ≤ (OrgDetailFull.mk (some "O1") true 1 1 1).org_commit := by
  refine claim_C9_output_min_one "2024-01-01" "2024-03-31" [cxOrgOne "O1" "2024-02-01"]
    ⟨some "O1", true, 1, 1, 1⟩ ?_
  show (⟨some "O1", true, 1, 1, 1⟩ : OrgDetailFull) ∈
    ocfList "2024-01-01" "2024-03-31" [cxOrgOne "O1" "2024-02-01"]
  rw [ocfList_single]
  exact List.mem_singleton.mpr rfl

/-! ### Lemmas for `org_contribution_last` -/

theorem mem_setAdd (s : List String) (x y : String) :
    y ∈ setAdd s x ↔ y = x ∨ y ∈ s := by
  unfold setAdd
  by_cases h : x ∈ s
  · simp only [h, if_pos]
    constructor
    · exact Or.inr
    · rintro (rfl | hy)
      · exact h
      · exact hy
  · simp [h]

theorem setAdd_nodup (s : List String) (x : String) (h : s.Nodup) : (setAdd s x).Nodup := by
  unfold setAdd
  by_cases hx : x ∈ s <;> simp [hx, h]

theorem orgStep_mem (c : Contributor) (fd td : String) (s : List String) (o : OrgChange)
    (y : String) :
    y ∈ orgStep c fd td s o ↔
      y ∈ s ∨ (o.org_name = some y ∧
        check_times_has_overlap o.first_date o.last_date fd td = true ∧
        anyCommitIn c fd td = true) := by
  unfold orgStep
  cases hn : o.org_name with
  | none => simp
  | some name =>
    by_cases hov : check_times_has_overlap o.first_date o.last_date fd td = true
    · by_cases hac : anyCommitIn c fd td = true
      · simp only [hov, hac, if_pos, mem_setAdd, hn, and_true, Option.some_inj]
        constructor
        · rintro (rfl | hy)
          · exact Or.inr rfl
          · exact Or.inl hy
        · rintro (hy | h2)
          · exact Or.inr hy
          · exact Or.inl h2.symm
      · simp [hov, hac, hn]
    · simp [hov, hn]

theorem innerFold_mem (c : Contributor) (fd td : String) :
    ∀ (orgs : List OrgChange) (s : List String) (y : String),
      (y ∈ orgs.foldl (orgStep c fd td) s) ↔
      (y ∈ s ∨ ∃ o ∈ orgs, o.org_name = some y ∧
        check_times_has_overlap o.first_date o.last_date fd td = true ∧
        anyCommitIn c fd td = true) := by
  intro orgs
  induction orgs with
  | nil => simp
  | cons o rest ih =>
    intro s y
    simp only [List.foldl_cons]
    rw [ih, orgStep_mem]
    constructor
    · rintro ((hy | ho) | ⟨o2, h2, h3⟩)
      · exact Or.inl hy
      · exact Or.inr ⟨o, List.mem_cons_self o rest, ho⟩
      · exact Or.inr ⟨o2, List.mem_cons_of_mem o h2, h3⟩
    · rintro (hy | ⟨o2, ho2, h3⟩)
      · exact Or.inl (Or.inl hy)
      · rcases List.mem_cons.mp ho2 with rfl | ho2
        · exact Or.inl (Or.inr h3)
        · exact Or.inr ⟨o2, ho2, h3⟩

theorem orgStep_nodup (c : Contributor) (fd td : String) (s : List String) (o : OrgChange)
    (h : s.Nodup) : (orgStep c fd td s o).Nodup := by
  unfold orgStep
  cases hn : o.org_name with
  | none => exact h
  | some name =>
    by_cases hov : check_times_has_overlap o.first_date o.last_date fd td = true <;>
      by_cases hac : anyCommitIn c fd td = true <;>
      simp [hov, hac, setAdd_nodup _ _ h, h]

theorem innerFold_nodup (c : Contributor) (fd td : String) :
    ∀ (orgs : List OrgChange) (s : List String), s.Nodup →
      (orgs.foldl (orgStep c fd td) s).Nodup := by
  intro orgs
  induction orgs with
  | nil => intro s h; simpa using h
  | cons o rest ih =>
    intro s h
    simp only [List.foldl_cons]
    exact ih _ (orgStep_nodup c fd td s o h)

theorem orgWeekSet_mem (group : List Contributor) (fd td : String) (y : String) :
    y ∈ orgWeekSet group fd td ↔ ∃ c ∈ group, orgActive c y fd td := by
  suffices h : ∀ (l : List Contributor) (s : List String),
      (y ∈ l.foldl (fun s c => c.org_change_date_list.foldl (orgStep c fd td) s) s) ↔
      (y ∈ s ∨ ∃ c ∈ l, orgActive c y fd td) by
    have := h group []
    simpa [orgWeekSet] using this
  intro l
  induction l with
  | nil => simp
  | cons c cs ih =>
    intro s
    simp only [List.foldl_cons]
    rw [ih, innerFold_mem]
    unfold orgActive
    constructor
    · rintro ((hy | ⟨o, ho, h2⟩) | ⟨c2, hc2, h3⟩)
      · exact Or.inl hy
      · exact Or.inr ⟨c, List.mem_cons_self c cs, o, ho, h2⟩
      · exact Or.inr ⟨c2, List.mem_cons_of_mem c hc2, h3⟩
    · rintro (hy | ⟨c2, hc2, h3⟩)
      · exact Or.inl (Or.inl hy)
      · rcases List.mem_cons.mp hc2 with rfl | hc2
        · exact Or.inl (Or.inr h3)
        · exact Or.inr ⟨c2, hc2, h3⟩

theorem orgWeekSet_nodup (group : List Contributor) (fd td : String) :
    (orgWeekSet group fd td).Nodup := by
  suffices h : ∀ (l : List Contributor) (s : List String), s.Nodup →
      (l.foldl (fun s c => c.org_change_date_list.foldl (orgStep c fd td) s) s).Nodup by
    exact h group [] List.nodup_nil
  intro l
  induction l with
  | nil => intro s hs; simpa using hs
  | cons c cs ih =>
    intro s hs
    simp only [List.foldl_cons]
    exact ih _ (innerFold_nodup c fd td c.org_change_date_list s hs)

/-- The per-week distinct-organization set of the imperative loop has the
cardinality the claim describes. -/
theorem orgWeekSet_length (group : List Contributor) (fd td : String) :
    (orgWeekSet group fd td).length = weekOrgCount group fd td := by
  rw [← List.toFinset_card_of_nodup (orgWeekSet_nodup group fd td)]
  unfold weekOrgCount
  congr 1
  ext y
  simp only [List.mem_toFinset, orgWeekSet_mem, Finset.mem_filter]
  constructor
  · intro h
    refine ⟨?_, h⟩
    obtain ⟨c, hc, o, ho, hname, _, _⟩ := h
    unfold allNames
    rw [List.mem_toFinset, List.mem_flatMap]
    exact ⟨c, hc, List.mem_filterMap.mpr ⟨o, ho, hname⟩⟩
  · exact fun h => h.2

theorem lookupG_insertGroup (acc : List (String × List Contributor)) (c : Contributor)
    (r : String) :
    lookupG (insertGroup acc c) r =
      lookupG acc r ++ (if c.repo_name = r then [c] else []) := by
  induction acc with
  | nil =>
    unfold insertGroup lookupG
    by_cases h : c.repo_name = r
    · simp [List.find?_cons_of_pos, h]
    · simp [List.find?_cons_of_neg, h]
  | cons p rest ih =>
    rcases p with ⟨rk, g⟩
    by_cases hk : rk = c.repo_name
    · simp only [insertGroup, hk, if_pos]
      by_cases hr : c.repo_name = r
      · unfold lookupG
        rw [List.find?_cons_of_pos _ (by simp [hr]), List.find?_cons_of_pos _ (by simp [hr])]
        simp [hr]
      · unfold lookupG
        rw [List.find?_cons_of_neg _ (by simp [hr]), List.find?_cons_of_neg _ (by simp [hr])]
        simp [hr]
    · simp only [insertGroup, hk, if_neg, not_false_iff]
      by_cases hr : rk = r
      · unfold lookupG
        rw [List.find?_cons_of_pos _ (by simp [hr]), List.find?_cons_of_pos _ (by simp [hr])]
        have : ¬ (c.repo_name = r) := fun h => hk (hr ▸ h.symm ▸ rfl)
        simp [this]
      · unfold lookupG
        rw [List.find?_cons_of_neg _ (by simp [hr]), List.find?_cons_of_neg _ (by simp [hr])]
        exact ih

theorem keys_insertGroup (acc : List (String × List Contributor)) (c : Contributor) :
    ((insertGroup acc c).map Prod.fst).Nodup = (acc.map Prod.fst).Nodup ∧
    (∀ r, r ∈ (insertGroup acc c).map Prod.fst ↔
      r ∈ acc.map Prod.fst ∨ r = c.repo_name) := by
  induction acc with
  | nil =>
    constructor
    · simp [insertGroup]
    · intro r
      simp [insertGroup, eq_comm]
  | cons p rest ih =>
    rcases p with ⟨rk, g⟩
    by_cases hk : rk = c.repo_name
    · constructor
      · simp [insertGroup, hk]
      · intro r
        simp only [insertGroup, hk, if_pos, List.map_cons, List.mem_cons]
        tauto
    · obtain ⟨ih1, ih2⟩ := ih
      constructor
      · simp only [insertGroup, hk, if_neg, not_false_iff, List.map_cons, List.nodup_cons]
        rw [ih1]
        have : rk ∈ (insertGroup rest c).map Prod.fst ↔ rk ∈ rest.map Prod.fst := by
          rw [ih2 rk]
          simp [hk]
        rw [eq_iff_iff]
        constructor
        · rintro ⟨h1, h2⟩
          exact ⟨fun hm => h1 (this.mpr hm), h2⟩
        · rintro ⟨h1, h2⟩
          exact ⟨fun hm => h1 (this.mp hm), h2⟩
      · intro r
        simp only [insertGroup, hk, if_neg, not_false_iff, List.map_cons, List.mem_cons, ih2 r]
        tauto

theorem groupFold_props (l : List Contributor) :
    ∀ (acc : List (String × List Contributor)), ((acc.map Prod.fst).Nodup) →
      (((l.foldl insertGroup acc).map Prod.fst).Nodup ∧
      (∀ r, lookupG (l.foldl insertGroup acc) r =
        lookupG acc r ++ l.filter (fun c => decide (c.repo_name = r))) ∧
      (∀ r, r ∈ (l.foldl insertGroup acc).map Prod.fst ↔
        r ∈ acc.map Prod.fst ∨ r ∈ l.map (fun c => c.repo_name))) := by
  induction l with
  | nil =>
    intro acc hn
    refine ⟨hn, fun r => by simp, fun r => by simp⟩
  | cons c cs ih =>
    intro acc hn
    simp only [List.foldl_cons]
    obtain ⟨k1, k2⟩ := keys_insertGroup acc c
    obtain ⟨h1, h2, h3⟩ := ih (insertGroup acc c) (by rw [k1]; exact hn)
    refine ⟨h1, ?_, ?_⟩
    · intro r
      rw [h2 r, lookupG_insertGroup, List.filter_cons, List.append_assoc]
      by_cases hr : c.repo_name = r
      · simp [hr]
      · simp [hr]
    · intro r
      rw [h3 r, k2 r]
      simp only [List.map_cons, List.mem_cons]
      tauto

theorem lookup_of_mem_nodup :
    ∀ (acc : List (String × List Contributor)), (acc.map Prod.fst).Nodup →
      ∀ p ∈ acc, p.2 = lookupG acc p.1 := by
  intro acc
  induction acc with
  | nil => intro _ p hp; simp at hp
  | cons q rest ih =>
    intro hn p hp
    simp only [List.map_cons, List.nodup_cons] at hn
    rcases List.mem_cons.mp hp with rfl | hp2
    · unfold lookupG
      rw [List.find?_cons_of_pos _ (by simp)]
    · have hne : q.1 ≠ p.1 := by
        intro he
        exact hn.1 (he ▸ List.mem_map.mpr ⟨p, hp2, rfl⟩)
      unfold lookupG
      rw [List.find?_cons_of_neg _ (by simp [hne])]
      exact ih hn.2 p hp2

/-- Each entry of the repo-group dict holds exactly the contributors of its
repository, in order. -/
theorem groupByRepo_entries (l : List Contributor) :
    ∀ p ∈ groupByRepo l, p.2 = l.filter (fun c => decide (c.repo_name = p.1)) := by
  have hprops := groupFold_props l [] (by simp)
  intro p hp
  have hlook : lookupG (groupByRepo l) p.1 =
      l.filter (fun c => decide (c.repo_name = p.1)) := by
    have := hprops.2.1 p.1
    simpa [lookupG] using this
  rw [← hlook]
  exact lookup_of_mem_nodup (groupByRepo l) hprops.1 p hp

theorem foldl_add_sum {α : Type} (f : α → Nat) :
    ∀ (l : List α) (a : Nat), l.foldl (fun acc x => acc + f x) a = a + (l.map f).sum := by
  intro l
  induction l with
  | nil => intro a; simp
  | cons x xs ih =>
    intro a
    simp only [List.foldl_cons, List.map_cons, List.sum_cons, ih]
    omega

/-- C6: `org_contribution_last` equals the sum, over repositories and 7-day
sub-windows of the 90-day window, of the number of distinct organizations
with an affiliation interval overlapping the sub-window and a commit by an
affiliated contributor inside it; an organization active in several
sub-windows counts once per sub-window. -/
theorem claim_C6_org_contribution (contributors : List Contributor) (fd td : Nat) :
    org_contribution_last contributors fd td = orgContributionSpec contributors fd td := by
  have houter : ∀ (groups : List (String × List Contributor)) (a : Nat),
      groups.foldl (fun acc rg =>
        (get_date_list fd td 7).foldl (fun acc day =>
          acc + (orgWeekSet rg.2 (dateToStr (day - 7)) (dateToStr day)).length) acc) a =
      a + (groups.map (fun rg => ((get_date_list fd td 7).map (fun day =>
        (orgWeekSet rg.2 (dateToStr (day - 7)) (dateToStr day)).length)).sum)).sum := by
    intro groups
    induction groups with
    | nil => intro a; simp
    | cons rg rest ih =>
      intro a
      simp only [List.foldl_cons, List.map_cons, List.sum_cons]
      rw [foldl_add_sum, ih]
      omega
  show (groupByRepo contributors).foldl (fun acc rg =>
      (get_date_list fd td 7).foldl (fun acc day =>
        acc + (orgWeekSet rg.2 (dateToStr (day - 7)) (dateToStr day)).length) acc) 0 =
    orgContributionSpec contributors fd td
  rw [houter]
  have hentries := groupByRepo_entries contributors
  have hkeys : ((groupByRepo contributors).map Prod.fst).Nodup :=
    (groupFold_props contributors [] (by simp)).1
  have hmem : ∀ r, r ∈ (groupByRepo contributors).map Prod.fst ↔
      r ∈ ([] : List (String × List Contributor)).map Prod.fst ∨
        r ∈ contributors.map (fun c => c.repo_name) :=
    (groupFold_props contributors [] (by simp)).2.2
  rw [List.map_congr_left (fun p hp => by
    rw [hentries p hp] :
      ∀ p ∈ groupByRepo contributors,
        ((get_date_list fd td 7).map (fun day =>
          (orgWeekSet p.2 (dateToStr (day - 7)) (dateToStr day)).length)).sum =
        ((get_date_list fd td 7).map (fun day =>
          (orgWeekSet (contributors.filter (fun c => decide (c.repo_name = p.1)))
            (dateToStr (day - 7)) (dateToStr day)).length)).sum)]
  rw [show (fun (p : String × List Contributor) =>
      ((get_date_list fd td 7).map (fun day =>
        (orgWeekSet (contributors.filter (fun c => decide (c.repo_name = p.1)))
          (dateToStr (day - 7)) (dateToStr day)).length)).sum) =
      (fun (r : String) =>
      ((get_date_list fd td 7).map (fun day =>
        (orgWeekSet (contributors.filter (fun c => decide (c.repo_name = r)))
          (dateToStr (day - 7)) (dateToStr day)).length)).sum) ∘ Prod.fst from rfl]
  rw [← List.map_map]
  have hsum := List.sum_toFinset (fun (r : String) =>
    ((get_date_list fd td 7).map (fun day =>
      (orgWeekSet (contributors.filter (fun c => decide (c.repo_name = r)))
        (dateToStr (day - 7)) (dateToStr day)).length)).sum) hkeys
  rw [← hsum]
  have hfin : ((groupByRepo contributors).map Prod.fst).toFinset =
      (contributors.map (fun c => c.repo_name)).toFinset := by
    ext r
    simp only [List.mem_toFinset]
    rw [hmem r]
    simp
  rw [hfin]
  unfold orgContributionSpec
  simp only [Nat.zero_add]
  refine Finset.sum_congr rfl (fun r _ => ?_)
  refine congrArg List.sum (List.map_congr_left (fun day _ => ?_))
  exact orgWeekSet_length _ _ _

end GitMetrics
